import Mathlib

/-!
Consistent hashing ring (`antlinker/conshash`).

A shallow embedding of `consistenthashing.go` and theorems about it.

Conventions of the embedding:

* `uint64` values are natural numbers; the only arithmetic on them is in the
  FNV-1a hash, where the product is reduced modulo `2 ^ 64`;
* Go maps are finite maps (`Finmap`): they carry no order, and the only place
  where the code iterates over a map and keeps the result (`updateCricle`)
  sorts what it collected;
* a Go `interface{}` value is an `Any`;
* a Go run-time panic is the `crash` outcome of `Exec`;
* the package-level `hasher` is passed explicitly: every function that hashes
  takes the current hasher state and returns the new one;
* the read/write lock is not modelled: every call runs to completion before
  the next one starts; the exceptions are the sections on two concurrent
  calls of `Put`, where a call is split at its lock boundaries and each
  locked section runs as one atomic step, and on two concurrent calls of
  `Get`, where the three statements of `defaultHash`, which run under no
  lock, are steps of their own;
* memory is not bounded: `make` panics on a negative capacity only.
-/

namespace Conshash

/-! ## Outcomes and dynamic values -/

/-- Run-time panics the code of the package can raise. -/
inductive Crash where
  | indexOutOfRange
  | makesliceCap
  deriving DecidableEq, Repr

/-- Outcome of a Go call: it returns, or it panics. -/
inductive Exec (β : Type) where
  | ok (b : β)
  | crash (c : Crash)
  deriving DecidableEq, Repr

/-- Sequencing of outcomes: a panic ends the computation. -/
def Exec.bind {β γ : Type} (x : Exec β) (f : β → Exec γ) : Exec γ :=
  match x with
  | Exec.ok b => f b
  | Exec.crash c => Exec.crash c

/-- Go `interface{}` values met by the package: `nil`, a `[]uint64`
(what `Get` hands out), or any other dynamic value, of type `α`. -/
inductive Any (α : Type) where
  | nil
  | val (a : α)
  | uint64s (vs : List Nat)
  deriving DecidableEq, Repr

/-! ## Hashing: `hash/fnv`, 64-bit FNV-1a -/

/-- The FNV-1a 64-bit offset basis, the state of a hasher after `Reset`. -/
def offset64 : Nat := 14695981039346656037

/-- The FNV 64-bit prime. -/
def prime64 : Nat := 1099511628211

/-- Go `hasher.Write(data)` of `fnv.New64a()`: for every byte, xor then
multiply (as `uint64`). -/
def fnvWrite (s : Nat) : List Nat → Nat
  | [] => s
  | b :: bs => fnvWrite (((s ^^^ b) * prime64) % 2 ^ 64) bs

/-- Go `hasher.Reset()`: the state becomes the offset basis. -/
def fnvReset (_s : Nat) : Nat := offset64

/-- Go `hasher.Sum64()`: the state, read as the hash. -/
def fnvSum64 (s : Nat) : Nat := s

/-- Go `defaultHash`: reset the shared hasher, write the data, read the sum.
The argument is the state of the package-level `hasher` before the call;
the result is the hash and the state of `hasher` after the call. -/
def defaultHash (hasher : Nat) (data : List Nat) : Nat × Nat :=
  let s1 := fnvReset hasher
  let s2 := fnvWrite s1 data
  (fnvSum64 s2, s2)

/-- Go `[]byte(key)`: the bytes of a string (UTF-8). -/
def bytes (s : String) : List Nat :=
  s.data.flatMap (fun c => (String.utf8EncodeChar c).map UInt8.toNat)

/-- Go `fmt.Sprintf("%s_%d", key, i)` for a non-negative `i`. -/
def sprintfKeyIndex (key : String) (i : Nat) : String :=
  key ++ "_" ++ toString i

/-! ## The ring -/

/-- Go `consistentHashing` (the lock is left out). -/
structure consistentHashing (α : Type) where
  node : Finmap (fun _ : String => Any α)
  vnode : Finmap (fun _ : Nat => String)
  nodev : Finmap (fun _ : String => List Nat)
  circle : List Nat
  vnodenum : Int
  deriving DecidableEq

/-- Go `CreateConsistentHashinger`: three empty maps, a nil circle. -/
def CreateConsistentHashinger (α : Type) (vnodenum : Int) : consistentHashing α :=
  { node := ∅, vnode := ∅, nodev := ∅, circle := [], vnodenum := vnodenum }

/-- The keys of a map collected in some iteration order and then sorted with
`sort.Sort`: the ascending list of the keys, whatever the iteration order. -/
def sortedKeys (s : Finset Nat) : List Nat :=
  Quot.liftOn s.val (fun l => l.insertionSort (· ≤ ·)) (fun a b h =>
    List.eq_of_perm_of_sorted
      (((List.perm_insertionSort _ a).trans h).trans (List.perm_insertionSort _ b).symm)
      (List.sorted_insertionSort _ a) (List.sorted_insertionSort _ b))

/-- Go `updateCricle`: the circle becomes the sorted keys of `vnode`. -/
def updateCricle {α : Type} (h : consistentHashing α) : consistentHashing α :=
  { h with circle := sortedKeys h.vnode.keys }

/-- The loop of `addCircle`; the first argument is the number of iterations
left, `i` is the loop counter. Each iteration hashes `key_i`, records the
owner of the point and appends the point to `vs`. -/
def addLoop (key : String) :
    Nat → Nat → Nat → Finmap (fun _ : Nat => String) → List Nat →
      Nat × Finmap (fun _ : Nat => String) × List Nat
  | 0, _, hasher, vnode, vs => (hasher, vnode, vs)
  | n + 1, i, hasher, vnode, vs =>
    let r := defaultHash hasher (bytes (sprintfKeyIndex key i))
    addLoop key n (i + 1) r.2 (vnode.insert r.1 key) (vs ++ [r.1])

/-- Go `addCircle`. `make([]uint64, 0, h.vnodenum)` panics when the capacity
is negative; the loop runs `vnodenum` times (not at all when it is not
positive). The other panic of `make`, for a capacity beyond the allocation
limit of the platform, is not modelled. -/
def addCircle {α : Type} (hasher : Nat) (h : consistentHashing α) (key : String)
    (value : Any α) : Exec (consistentHashing α × Nat) :=
  let node1 := h.node.insert key value
  match h.nodev.lookup key with
  | none =>
    if h.vnodenum < 0 then Exec.crash Crash.makesliceCap
    else
      let r := addLoop key h.vnodenum.toNat 0 hasher h.vnode []
      Exec.ok (updateCricle
        { h with node := node1, vnode := r.2.1, nodev := h.nodev.insert key r.2.2 }, r.1)
  | some vs =>
    let r := addLoop key h.vnodenum.toNat 0 hasher h.vnode vs
    Exec.ok (updateCricle
      { h with node := node1, vnode := r.2.1, nodev := h.nodev.insert key r.2.2 }, r.1)

/-- Go `removeCircle`: delete the points listed for `key` from `vnode`, delete
`key` from `nodev` and `node`, rebuild the circle. -/
def removeCircle {α : Type} (h : consistentHashing α) (key : String) : consistentHashing α :=
  let vs := (h.nodev.lookup key).getD []
  updateCricle
    { h with vnode := vs.foldl (fun m n => m.erase n) h.vnode,
             nodev := h.nodev.erase key,
             node := h.node.erase key }

/-- Go `Put`: nothing happens for a registered key, `addCircle` otherwise. -/
def Put {α : Type} (hasher : Nat) (h : consistentHashing α) (key : String) (value : Any α) :
    Exec (consistentHashing α × Nat) :=
  match h.node.lookup key with
  | some _ => Exec.ok (h, hasher)
  | none => addCircle hasher h key value

/-- Go `Remove`: `nil` for an unknown key, else the stored value, after
`removeCircle`. -/
def Remove {α : Type} (h : consistentHashing α) (key : String) : Any α × consistentHashing α :=
  match h.node.lookup key with
  | none => (Any.nil, h)
  | some v => (v, removeCircle h key)

/-- Go slice indexing `c[i]` with its bounds check. -/
def index (c : List Nat) (i : Int) : Exec Nat :=
  if 0 ≤ i ∧ i < c.length then Exec.ok (c.getD i.toNat 0)
  else Exec.crash Crash.indexOutOfRange

/-- The loop of Go `sort.Search(n, f)`, started with `i = 0`, `j = n`: while
`i < j`, probe the midpoint, continue in the upper part if `f` is false there
and in the lower part otherwise. The first argument bounds the number of
iterations; `j - i` iterations are enough (`searchLoop_fuel`). -/
def searchLoop (f : Nat → Exec Bool) : Nat → Nat → Nat → Exec Nat
  | 0, i, _ => Exec.ok i
  | fuel + 1, i, j =>
    if i < j then
      (f ((i + j) / 2)).bind (fun b =>
        if !b then searchLoop f fuel ((i + j) / 2 + 1) j
        else searchLoop f fuel i ((i + j) / 2))
    else Exec.ok i

/-- Go `sort.Search(n, f)`. -/
def sortSearch (n : Nat) (f : Nat → Exec Bool) : Exec Nat :=
  searchLoop f n 0 n

/-- Go `search`: `sort.Search` for the first index whose point is `>= key`,
one step back, and from before the start to the last index. -/
def search {α : Type} (h : consistentHashing α) (key : Nat) : Exec Nat :=
  let f := fun (x : Nat) => (index h.circle x).bind (fun c => Exec.ok (decide (c ≥ key)))
  (sortSearch h.circle.length f).bind (fun i0 =>
    let i : Int := (i0 : Int) - 1
    let i : Int := if i < 0 then (h.circle.length : Int) - 1 else i
    index h.circle i)

/-- Go `Get`: hash the key, `search` the circle, look the point up in `vnode`
(a missing entry reads as the empty string) and read `nodev` at the owner
(a missing entry reads as a nil slice). The second component is the state of
the shared hasher after the call. -/
def Get {α : Type} (hasher : Nat) (h : consistentHashing α) (key : String) :
    Exec (String × Any α) × Nat :=
  let r := defaultHash hasher (bytes key)
  match search h r.1 with
  | Exec.crash c => (Exec.crash c, r.2)
  | Exec.ok i =>
    let outkey := (h.vnode.lookup i).getD ""
    let value : Any α := Any.uint64s ((h.nodev.lookup outkey).getD [])
    (Exec.ok (outkey, value), r.2)

/-- Go `Len`: the number of keys of `node`. -/
def Len {α : Type} (h : consistentHashing α) : Nat :=
  h.node.keys.card

/-! ## Auxiliary definitions used in the statements -/

/-- The hash of `data`, as a function of the data alone. -/
def fnv64a (data : List Nat) : Nat := fnvWrite offset64 data

/-- The virtual point number `i` of the node `key`: the hash `addCircle`
computes in iteration `i` of its loop. -/
def vpoint (key : String) (i : Nat) : Nat :=
  (defaultHash 0 (bytes (sprintfKeyIndex key i))).1

/-- The first `n` virtual points of the node `key`, in the order of the loop. -/
def vpoints (key : String) (n : Nat) : List Nat :=
  (List.range n).map (vpoint key)

/-- The point `p` is the predecessor of `key` on the circle `c`: the largest
point below `key`, or the largest point of all when no point is below `key`. -/
def IsPredecessor (c : List Nat) (key p : Nat) : Prop :=
  p ∈ c ∧ ((p < key ∧ ∀ y ∈ c, y < key → y ≤ p) ∨
    ((∀ y ∈ c, key ≤ y) ∧ ∀ y ∈ c, y ≤ p))

/-- The states `CreateConsistentHashinger(V)` can be brought to by calls of
`Put` and `Remove` that return. -/
inductive Reachable {α : Type} (V : Int) : consistentHashing α → Prop where
  | create : Reachable V (CreateConsistentHashinger α V)
  | put {h h1 : consistentHashing α} {hasher hasher1 : Nat} (key : String) (value : Any α) :
      Reachable V h → Put hasher h key value = Exec.ok (h1, hasher1) → Reachable V h1
  | remove {h : consistentHashing α} (key : String) :
      Reachable V h → Reachable V (Remove h key).2

/-- Ring of three points used in the examples. -/
def ringOfThree : consistentHashing String :=
  { node := ∅, vnode := ∅, nodev := ∅, circle := [10, 20, 30], vnodenum := 1 }

/-- The invariant of the ring for the virtual-node count `V`: `node` and
`nodev` have the same keys, `nodev` lists for every node its `V` points in
loop order, every entry of `vnode` names a registered node and one of its
points, and the circle is the sorted list of the keys of `vnode`. -/
structure Inv {α : Type} (V : Int) (h : consistentHashing α) : Prop where
  vnum : h.vnodenum = V
  keys : ∀ k, k ∈ h.nodev ↔ k ∈ h.node
  pts : ∀ k vs, h.nodev.lookup k = some vs → vs = vpoints k V.toNat
  owner : ∀ q k, h.vnode.lookup q = some k → k ∈ h.node ∧ q ∈ vpoints k V.toNat
  circle : h.circle = sortedKeys h.vnode.keys

/-- A call of the sequential interface that changes the ring. -/
inductive Op (α : Type) where
  | put (key : String) (value : Any α)
  | remove (key : String)

/-- One call, on the ring and the shared hasher. -/
def step {α : Type} (p : consistentHashing α × Nat) : Op α → Exec (consistentHashing α × Nat)
  | Op.put key value => Put p.2 p.1 key value
  | Op.remove key => Exec.ok ((Remove p.1 key).2, p.2)

/-- A sequence of calls, one after the other. -/
def run {α : Type} (p : consistentHashing α × Nat) : List (Op α) → Exec (consistentHashing α × Nat)
  | [] => Exec.ok p
  | op :: ops => (step p op).bind (fun q => run q ops)

/-- The result of a call that returned, or `d` after a panic. -/
def Exec.getD {β : Type} (x : Exec β) (d : β) : β :=
  match x with
  | Exec.ok b => b
  | Exec.crash _ => d

/-- The first step of the test: `CreateConsistentHashinger(20)` and
`Put("server0", "server0")`. -/
def putServer0 : Exec (consistentHashing String × Nat) :=
  Put 0 (CreateConsistentHashinger String 20) "server0" (Any.val "server0")

/-- The ring with the single node `server0` and 20 virtual points. -/
def oneServer : consistentHashing String :=
  (putServer0.getD (CreateConsistentHashinger String 20, 0)).1

/-- The state of the shared hasher after `putServer0`. -/
def oneServerHasher : Nat :=
  (putServer0.getD (CreateConsistentHashinger String 20, 0)).2

/-- The virtual points of the registered nodes are pairwise distinct: two
pairs (node key, index) with the same hash are the same pair. -/
def DistinctPoints {α : Type} (h : consistentHashing α) : Prop :=
  ∀ a ∈ h.node.keys, ∀ b ∈ h.node.keys,
    ∀ i, i < h.vnodenum.toNat → ∀ j, j < h.vnodenum.toNat →
      vpoint a i = vpoint b j → a = b ∧ i = j

instance {α : Type} (h : consistentHashing α) : Decidable (DistinctPoints h) := by
  unfold DistinctPoints
  infer_instance

/-- The calls that build `twoServers`. -/
def twoServersOps : List (Op String) :=
  [Op.put "server0" (Any.val "server0"), Op.put "server1" (Any.val "server1")]

/-- The test's ring cut down to two nodes with two virtual points each:
`CreateConsistentHashinger(2)`, `Put("server0", "server0")`,
`Put("server1", "server1")`. -/
def twoServers : consistentHashing String × Nat :=
  (run (CreateConsistentHashinger String 2, 0) twoServersOps).getD
    (CreateConsistentHashinger String 2, 0)

/-- The nodes of the test: `server0` .. `server99`, each with its key as
value. -/
def testServers : List (String × Any String) :=
  (List.range 100).map (fun i => ("server" ++ toString i, Any.val ("server" ++ toString i)))

/-- The state of the shared hasher after `Get` was called on each key of the
list in turn. -/
def hasherAfterGets {α : Type} (hasher : Nat) (h : consistentHashing α) : List String → Nat
  | [] => hasher
  | y :: ys => hasherAfterGets (Get hasher h y).2 h ys

/-- A Go slice of strings, as its holder sees it: the backing array from the
first element of the slice up to its capacity, and the length. -/
structure Slice where
  array : List String
  len : Nat
  deriving DecidableEq, Repr

/-- The elements of a slice: the first `len` cells of its backing array. -/
def Slice.elems (s : Slice) : List String :=
  s.array.take s.len

/-- Go `keys = append(keys, k)` inside `Keys`. `caller` is the backing array
of the slice the caller passed, `loc` the local variable `keys`, `shared`
tells whether `loc` still uses the caller's backing array. With room left the
element is written into the backing array in place; without, a new array is
allocated and the caller's array is used no more. The capacity of the new
array is left at its length: the local slice is dropped at return. -/
def appendKey (caller : List String) (loc : Slice) (shared : Bool) (k : String) :
    List String × Slice × Bool :=
  if loc.len < loc.array.length then
    (if shared then loc.array.set loc.len k else caller,
      { array := loc.array.set loc.len k, len := loc.len + 1 }, shared)
  else
    (caller, { array := loc.array.take loc.len ++ [k], len := loc.len + 1 }, false)

/-- The loop of `Keys` over the keys of `node` in the order `order`; the
result is the caller's backing array after the loop. -/
def keysLoop : List String → List String → Slice → Bool → List String
  | [], caller, _, _ => caller
  | k :: ks, caller, loc, shared =>
    let r := appendKey caller loc shared k
    keysLoop ks r.1 r.2.1 r.2.2

/-- Go `Keys(keys []string) int`. The slice is passed by value: the function
appends to its own copy of the slice header and returns `len(h.node)`. The
order in which `range h.node` yields the keys is not specified by Go and is
the argument `order`. The result is the slice of the caller after the call
(same length, backing array as the loop left it) and the returned count. -/
def Keys {α : Type} (h : consistentHashing α) (order : List String) (keys : Slice) :
    Slice × Nat :=
  ({ array := keysLoop order keys.array keys true, len := keys.len }, h.node.keys.card)

/-- The keys given to `Put` in a sequence of calls. -/
def putKeys {α : Type} : List (Op α) → List String
  | [] => []
  | Op.put key _ :: ops => key :: putKeys ops
  | Op.remove _ :: ops => putKeys ops

/-- The first `n` virtual points of the keys of `ks` are pairwise distinct:
two pairs (node key, index) with the same hash are the same pair. -/
def DistinctKeys (n : Nat) (ks : List String) : Prop :=
  ∀ a ∈ ks, ∀ b ∈ ks, ∀ i, i < n → ∀ j, j < n → vpoint a i = vpoint b j → a = b ∧ i = j

instance (n : Nat) (ks : List String) : Decidable (DistinctKeys n ks) := by
  unfold DistinctKeys
  infer_instance

/-- Every point listed in `nodev` is a key of `vnode`, owned by the node that
lists it. -/
def PointsPresent {α : Type} (h : consistentHashing α) : Prop :=
  ∀ k vs, h.nodev.lookup k = some vs → ∀ q ∈ vs, h.vnode.lookup q = some k

/-- Where a call of `Put` stands: before its read-locked check of `node`,
between that check and the write-locked `addCircle`, or returned. -/
inductive PutPc where
  | check
  | add
  | done
  deriving DecidableEq, Repr

/-- A call `Put(key, value)` in progress. -/
structure PutCall (α : Type) where
  key : String
  value : Any α
  pc : PutPc
  deriving DecidableEq

/-- The next critical section of a call of `Put`, run as one atomic unit (it
holds the lock): under `RLock`, the test `_, ok := h.node[key]`, after which
the call returns (`ok`) or goes on to take `Lock`; under `Lock`, the call
`h.addCircle(key, value)`, with no second test. -/
def PutCall.step {α : Type} (p : consistentHashing α × Nat) (c : PutCall α) :
    Exec ((consistentHashing α × Nat) × PutCall α) :=
  match c.pc with
  | PutPc.check =>
    match p.1.node.lookup c.key with
    | some _ => Exec.ok (p, { c with pc := PutPc.done })
    | none => Exec.ok (p, { c with pc := PutPc.add })
  | PutPc.add =>
    (addCircle p.2 p.1 c.key c.value).bind (fun q => Exec.ok (q, { c with pc := PutPc.done }))
  | PutPc.done => Exec.ok (p, c)

/-- Two calls of `Put` on the same ring, run concurrently: the schedule tells,
critical section after critical section, which call goes next (`false` the
first call, `true` the second). -/
def runTwo {α : Type} (p : consistentHashing α × Nat) (c0 c1 : PutCall α) :
    List Bool → Exec ((consistentHashing α × Nat) × PutCall α × PutCall α)
  | [] => Exec.ok (p, c0, c1)
  | false :: s => (PutCall.step p c0).bind (fun r => runTwo r.1 r.2 c1 s)
  | true :: s => (PutCall.step p c1).bind (fun r => runTwo r.1 c0 r.2 s)

/-- The body of `Get` after the hash is computed, run under `RLock`: `search`
the circle, read `vnode` at the point and `nodev` at the owner. -/
def getLocked {α : Type} (h : consistentHashing α) (hashKey : Nat) : Exec (String × Any α) :=
  match search h hashKey with
  | Exec.crash c => Exec.crash c
  | Exec.ok i =>
    let outkey := (h.vnode.lookup i).getD ""
    let value : Any α := Any.uint64s ((h.nodev.lookup outkey).getD [])
    Exec.ok (outkey, value)

/-- Where a call of `Get` stands: before `hasher.Reset()`, before
`hasher.Write(data)`, before `hasher.Sum64()` (the three statements of
`defaultHash`, run before `h.RLock()` and under no lock), before the
read-locked section with the hash it read, or returned with its result. -/
inductive GetPc (α : Type) where
  | reset
  | write
  | sum
  | locked (hashKey : Nat)
  | done (result : Exec (String × Any α))
  deriving DecidableEq

/-- A call `Get(key)` in progress. -/
structure GetCall (α : Type) where
  key : String
  pc : GetPc α
  deriving DecidableEq

/-- The next step of a call of `Get` on the ring `h`, given the state of the
package-level hasher: one of the three statements of `defaultHash` on the
shared hasher, or the read-locked section. The result is the new state of the
hasher and the call after the step. -/
def GetCall.step {α : Type} (h : consistentHashing α) (hasher : Nat) (c : GetCall α) :
    Nat × GetCall α :=
  match c.pc with
  | GetPc.reset => (fnvReset hasher, { c with pc := GetPc.write })
  | GetPc.write => (fnvWrite hasher (bytes c.key), { c with pc := GetPc.sum })
  | GetPc.sum => (hasher, { c with pc := GetPc.locked (fnvSum64 hasher) })
  | GetPc.locked hashKey => (hasher, { c with pc := GetPc.done (getLocked h hashKey) })
  | GetPc.done _ => (hasher, c)

/-- Two calls of `Get` on the same ring, run concurrently: the schedule tells,
step after step, which call goes next (`false` the first call, `true` the
second). -/
def runTwoGets {α : Type} (h : consistentHashing α) (hasher : Nat) (c0 c1 : GetCall α) :
    List Bool → Nat × GetCall α × GetCall α
  | [] => (hasher, c0, c1)
  | false :: s => runTwoGets h (GetCall.step h hasher c0).1 (GetCall.step h hasher c0).2 c1 s
  | true :: s => runTwoGets h (GetCall.step h hasher c1).1 c0 (GetCall.step h hasher c1).2 s

/-! ## Basic facts -/

@[simp] theorem Exec.bind_ok {β γ : Type} (b : β) (f : β → Exec γ) :
    (Exec.ok b).bind f = f b := rfl

@[simp] theorem Exec.bind_crash {β γ : Type} (c : Crash) (f : β → Exec γ) :
    (Exec.crash c : Exec β).bind f = Exec.crash c := rfl

@[simp] theorem defaultHash_eq (hasher : Nat) (data : List Nat) :
    defaultHash hasher data = (fnv64a data, fnv64a data) := rfl

theorem index_of_lt (c : List Nat) (x : Nat) (hx : x < c.length) :
    index c (x : Int) = Exec.ok (c.getD x 0) := by
  unfold index
  rw [if_pos ⟨Int.natCast_nonneg x, by exact_mod_cast hx⟩]
  simp

theorem index_nil (i : Int) : index [] i = Exec.crash Crash.indexOutOfRange := by
  unfold index
  rw [if_neg]
  rintro ⟨h0, h1⟩
  simp at h1
  omega

/-! ## Binary search -/

/-- The invariant of `sort.Search`: when the probe `f` answers `g` below `n`,
the loop returns an index `r` with `g (r - 1)` false (or `r = 0`) and `g r`
true (or `r = n`), provided the bounds it starts from are such. In
particular the loop ends within `j - i` iterations. -/
theorem searchLoop_fuel (f : Nat → Exec Bool) (g : Nat → Bool) (n : Nat)
    (hf : ∀ x, x < n → f x = Exec.ok (g x)) :
    ∀ (fuel i j : Nat), i ≤ j → j ≤ n → j - i ≤ fuel →
      (i = 0 ∨ g (i - 1) = false) → (j = n ∨ g j = true) →
      ∃ r, searchLoop f fuel i j = Exec.ok r ∧ r ≤ n ∧
        (r = 0 ∨ g (r - 1) = false) ∧ (r = n ∨ g r = true) := by
  intro fuel
  induction fuel with
  | zero =>
    intro i j hij hjn hfuel hi hj
    have hEq : i = j := by omega
    subst hEq
    exact ⟨i, rfl, hjn, hi, hj⟩
  | succ fuel ih =>
    intro i j hij hjn hfuel hi hj
    unfold searchLoop
    by_cases hlt : i < j
    · rw [if_pos hlt]
      have hm : (i + j) / 2 < n := by omega
      rw [hf _ hm, Exec.bind_ok]
      cases hg : g ((i + j) / 2) with
      | false =>
        simp only [Bool.not_false, if_true]
        refine ih ((i + j) / 2 + 1) j (by omega) hjn (by omega) ?_ hj
        right
        simpa using hg
      | true =>
        simp only [Bool.not_true, Bool.false_eq_true, if_false]
        exact ih i ((i + j) / 2) (by omega) (by omega) (by omega) hi (Or.inr hg)
    · rw [if_neg hlt]
      have hEq : i = j := by omega
      subst hEq
      exact ⟨i, rfl, hjn, hi, hj⟩

/-- The probe of `search` on a circle `c`. -/
theorem search_probe (c : List Nat) (key x : Nat) (hx : x < c.length) :
    (index c (x : Int)).bind (fun v => Exec.ok (decide (v ≥ key)))
      = Exec.ok (decide (c.getD x 0 ≥ key)) := by
  rw [index_of_lt c x hx, Exec.bind_ok]

/-- On a non-empty circle `search` returns the point at `r - 1`, or the last
point when `r = 0`, where `r` is the index found by `sort.Search`. -/
theorem search_index {α : Type} (h : consistentHashing α) (key : Nat)
    (hne : h.circle ≠ []) :
    ∃ r, r ≤ h.circle.length ∧
      (r = 0 ∨ h.circle.getD (r - 1) 0 < key) ∧
      (r = h.circle.length ∨ key ≤ h.circle.getD r 0) ∧
      search h key =
        Exec.ok (h.circle.getD (if r = 0 then h.circle.length - 1 else r - 1) 0) := by
  have hpos : 0 < h.circle.length := List.length_pos.mpr hne
  obtain ⟨r, hr, hrn, hlo, hhi⟩ :=
    searchLoop_fuel
      (fun (x : Nat) => (index h.circle x).bind (fun c => Exec.ok (decide (c ≥ key))))
      (fun x => decide (h.circle.getD x 0 ≥ key)) h.circle.length
      (fun x hx => search_probe h.circle key x hx)
      h.circle.length 0 h.circle.length (Nat.zero_le _) le_rfl (by omega)
      (Or.inl rfl) (Or.inl rfl)
  refine ⟨r, hrn, ?_, ?_, ?_⟩
  · rcases hlo with h0 | h1
    · exact Or.inl h0
    · right
      simpa using h1
  · rcases hhi with h0 | h1
    · exact Or.inl h0
    · right
      simpa using h1
  · unfold search sortSearch
    dsimp only
    rw [hr, Exec.bind_ok]
    by_cases h0 : r = 0
    · subst h0
      simp only [if_true]
      have hidx : ((if ((0 : Nat) : Int) - 1 < 0 then (h.circle.length : Int) - 1
          else ((0 : Nat) : Int) - 1) : Int) = ((h.circle.length - 1 : Nat) : Int) := by
        rw [if_pos (by omega)]
        omega
      rw [hidx]
      exact index_of_lt _ _ (by omega)
    · rw [if_neg h0]
      have hidx : ((if ((r : Nat) : Int) - 1 < 0 then (h.circle.length : Int) - 1
          else ((r : Nat) : Int) - 1) : Int) = ((r - 1 : Nat) : Int) := by
        rw [if_neg (by omega)]
        omega
      rw [hidx]
      exact index_of_lt _ _ (by omega)

/-! ## The point chosen by `search` on a sorted circle -/

theorem sorted_getD_le (c : List Nat) (hs : c.Sorted (· ≤ ·)) (i j : Nat)
    (hij : i ≤ j) (hj : j < c.length) : c.getD i 0 ≤ c.getD j 0 := by
  have hi : i < c.length := lt_of_le_of_lt hij hj
  rw [List.getD_eq_getElem c 0 hi, List.getD_eq_getElem c 0 hj]
  rcases Nat.eq_or_lt_of_le hij with h | h
  · subst h
    exact le_rfl
  · exact (List.pairwise_iff_getElem.mp hs) i j hi hj h

theorem mem_iff_getD (c : List Nat) (y : Nat) :
    y ∈ c ↔ ∃ t, t < c.length ∧ c.getD t 0 = y := by
  rw [List.mem_iff_getElem]
  constructor
  · rintro ⟨t, ht, hy⟩
    exact ⟨t, ht, by rw [List.getD_eq_getElem c 0 ht]; exact hy⟩
  · rintro ⟨t, ht, hy⟩
    exact ⟨t, ht, by rw [List.getD_eq_getElem c 0 ht] at hy; exact hy⟩

/-- On a non-empty ascending circle `search` returns the predecessor. -/
theorem search_pred {α : Type} (h : consistentHashing α) (key : Nat)
    (hne : h.circle ≠ []) (hs : h.circle.Sorted (· ≤ ·)) :
    ∃ p, search h key = Exec.ok p ∧ IsPredecessor h.circle key p := by
  have hpos : 0 < h.circle.length := List.length_pos.mpr hne
  obtain ⟨r, hrn, hlo, hhi, hres⟩ := search_index h key hne
  refine ⟨_, hres, ?_⟩
  by_cases h0 : r = 0
  · subst h0
    rw [if_pos rfl]
    refine ⟨(mem_iff_getD _ _).mpr ⟨h.circle.length - 1, by omega, rfl⟩, Or.inr ⟨?_, ?_⟩⟩
    · intro y hy
      obtain ⟨t, ht, rfl⟩ := (mem_iff_getD _ _).mp hy
      rcases hhi with hn | hk
      · omega
      · exact le_trans hk (sorted_getD_le _ hs 0 t (Nat.zero_le _) ht)
    · intro y hy
      obtain ⟨t, ht, rfl⟩ := (mem_iff_getD _ _).mp hy
      exact sorted_getD_le _ hs t _ (by omega) (by omega)
  · rw [if_neg h0]
    have hp : h.circle.getD (r - 1) 0 < key := by
      rcases hlo with hz | hk
      · exact absurd hz h0
      · exact hk
    refine ⟨(mem_iff_getD _ _).mpr ⟨r - 1, by omega, rfl⟩, Or.inl ⟨hp, ?_⟩⟩
    intro y hy hyk
    obtain ⟨t, ht, rfl⟩ := (mem_iff_getD _ _).mp hy
    by_cases htr : t ≤ r - 1
    · exact sorted_getD_le _ hs t _ htr (by omega)
    · exfalso
      rcases hhi with hn | hk
      · omega
      · have := sorted_getD_le _ hs r t (by omega) ht
        omega

/-- Two predecessors of the same key on the same circle are equal. -/
theorem IsPredecessor.unique {c : List Nat} {key p q : Nat}
    (hp : IsPredecessor c key p) (hq : IsPredecessor c key q) : p = q := by
  obtain ⟨hpm, hp⟩ := hp
  obtain ⟨hqm, hq⟩ := hq
  rcases hp with ⟨hp1, hp2⟩ | ⟨hp1, hp2⟩ <;> rcases hq with ⟨hq1, hq2⟩ | ⟨hq1, hq2⟩
  · exact le_antisymm (hq2 p hpm hp1) (hp2 q hqm hq1)
  · have := hq1 p hpm
    omega
  · have := hp1 q hqm
    omega
  · exact le_antisymm (hq2 p hpm) (hp2 q hqm)

/-- A predecessor stays the predecessor on a smaller circle that keeps it. -/
theorem IsPredecessor.subset {c d : List Nat} {key p : Nat}
    (hp : IsPredecessor c key p) (hsub : ∀ y ∈ d, y ∈ c) (hpd : p ∈ d) :
    IsPredecessor d key p := by
  obtain ⟨_, hp⟩ := hp
  refine ⟨hpd, ?_⟩
  rcases hp with ⟨hp1, hp2⟩ | ⟨hp1, hp2⟩
  · exact Or.inl ⟨hp1, fun y hy hyk => hp2 y (hsub y hy) hyk⟩
  · exact Or.inr ⟨fun y hy => hp1 y (hsub y hy), fun y hy => hp2 y (hsub y hy)⟩

/-- Every point of an ascending list is at most its last point. -/
theorem sorted_le_getLast (c : List Nat) (hs : c.Sorted (· ≤ ·)) (hne : c ≠ [])
    (y : Nat) (hy : y ∈ c) : y ≤ c.getLast hne := by
  have hpos : 0 < c.length := List.length_pos.mpr hne
  obtain ⟨t, ht, rfl⟩ := (mem_iff_getD _ _).mp hy
  rw [List.getLast_eq_getElem, ← List.getD_eq_getElem c 0 (by omega)]
  exact sorted_getD_le _ hs t _ (by omega) (by omega)

/-! ## Maps, loops and the sorted circle -/

theorem mem_sortedKeys (s : Finset Nat) (x : Nat) : x ∈ sortedKeys s ↔ x ∈ s := by
  obtain ⟨⟨l⟩, hl⟩ := s
  show x ∈ l.insertionSort (· ≤ ·) ↔ x ∈ l
  exact List.mem_insertionSort _

theorem sortedKeys_sorted (s : Finset Nat) : (sortedKeys s).Sorted (· ≤ ·) := by
  obtain ⟨⟨l⟩, hl⟩ := s
  show (l.insertionSort (· ≤ ·)).Sorted (· ≤ ·)
  exact List.sorted_insertionSort _ l

theorem lookup_foldl_insert (key : String) (pts : List Nat) :
    ∀ (m : Finmap (fun _ : Nat => String)) (q : Nat),
      (pts.foldl (fun m p => m.insert p key) m).lookup q
        = if q ∈ pts then some key else m.lookup q := by
  induction pts with
  | nil => intro m q; simp
  | cons p ps ih =>
    intro m q
    rw [List.foldl_cons, ih]
    by_cases hq : q ∈ ps
    · simp [hq]
    · by_cases hqp : q = p
      · subst hqp
        simp [hq, Finmap.lookup_insert]
      · simp [hq, hqp, Finmap.lookup_insert_of_ne _ hqp]

theorem lookup_foldl_erase (vs : List Nat) :
    ∀ (m : Finmap (fun _ : Nat => String)) (q : Nat),
      (vs.foldl (fun m n => m.erase n) m).lookup q
        = if q ∈ vs then none else m.lookup q := by
  induction vs with
  | nil => intro m q; simp
  | cons p ps ih =>
    intro m q
    rw [List.foldl_cons, ih]
    by_cases hq : q ∈ ps
    · simp [hq]
    · by_cases hqp : q = p
      · subst hqp
        simp [hq, Finmap.lookup_erase]
      · simp [hq, hqp, Finmap.lookup_erase_ne hqp]

/-- What the loop of `addCircle` leaves in `vnode` and in `vs`. -/
theorem addLoop_eq (key : String) :
    ∀ (n i hasher : Nat) (vnode : Finmap (fun _ : Nat => String)) (vs : List Nat),
      (addLoop key n i hasher vnode vs).2 =
        (((List.range' i n).map (vpoint key)).foldl (fun m p => m.insert p key) vnode,
          vs ++ (List.range' i n).map (vpoint key)) := by
  intro n
  induction n with
  | zero => intro i hasher vnode vs; simp [addLoop]
  | succ n ih =>
    intro i hasher vnode vs
    rw [addLoop, ih, List.range'_succ]
    simp [vpoint, List.append_assoc]

theorem addLoop_vnode (key : String) (n hasher : Nat)
    (vnode : Finmap (fun _ : Nat => String)) (vs : List Nat) :
    (addLoop key n 0 hasher vnode vs).2.1 =
      (vpoints key n).foldl (fun m p => m.insert p key) vnode := by
  rw [addLoop_eq, vpoints, List.range_eq_range']

theorem addLoop_vs (key : String) (n hasher : Nat)
    (vnode : Finmap (fun _ : Nat => String)) (vs : List Nat) :
    (addLoop key n 0 hasher vnode vs).2.2 = vs ++ vpoints key n := by
  rw [addLoop_eq, vpoints, List.range_eq_range']

/-- Go `Put` of a key that is in neither `node` nor `nodev`, on a ring with a
non-negative virtual-node count: the call returns, and the new state is
the old one with the key, its points and the rebuilt circle. -/
theorem Put_new {α : Type} (hasher : Nat) (h : consistentHashing α) (key : String)
    (value : Any α) (hk : key ∉ h.node) (hnv : key ∉ h.nodev) (hV : 0 ≤ h.vnodenum) :
    ∃ hasher1, Put hasher h key value = Exec.ok
      ({ node := h.node.insert key value,
         vnode := (vpoints key h.vnodenum.toNat).foldl (fun m p => m.insert p key) h.vnode,
         nodev := h.nodev.insert key (vpoints key h.vnodenum.toNat),
         circle := sortedKeys
           ((vpoints key h.vnodenum.toNat).foldl (fun m p => m.insert p key) h.vnode).keys,
         vnodenum := h.vnodenum }, hasher1) := by
  have h1 : h.node.lookup key = none := Finmap.lookup_eq_none.mpr hk
  have h2 : h.nodev.lookup key = none := Finmap.lookup_eq_none.mpr hnv
  refine ⟨(addLoop key h.vnodenum.toNat 0 hasher h.vnode []).1, ?_⟩
  unfold Put
  rw [h1]
  unfold addCircle
  simp only [h2]
  rw [if_neg (by omega)]
  simp only [updateCricle, addLoop_vnode, addLoop_vs, List.nil_append]

/-- Go `Put` of a registered key returns the state and the hasher it was given. -/
theorem Put_old {α : Type} (hasher : Nat) (h : consistentHashing α) (key : String)
    (value : Any α) (hk : key ∈ h.node) : Put hasher h key value = Exec.ok (h, hasher) := by
  obtain ⟨v, hv⟩ := Finmap.mem_iff.mp hk
  unfold Put
  rw [hv]

/-- Go `Remove` of an unregistered key returns `nil` and the same state. -/
theorem Remove_unknown {α : Type} (h : consistentHashing α) (key : String)
    (hk : key ∉ h.node) : Remove h key = (Any.nil, h) := by
  unfold Remove
  rw [Finmap.lookup_eq_none.mpr hk]

/-- Go `Remove` of a registered key returns its value and runs `removeCircle`. -/
theorem Remove_known {α : Type} (h : consistentHashing α) (key : String) (v : Any α)
    (hv : h.node.lookup key = some v) : Remove h key = (v, removeCircle h key) := by
  unfold Remove
  rw [hv]

theorem mem_keys_foldl_insert (key : String) (pts : List Nat)
    (m : Finmap (fun _ : Nat => String)) (q : Nat) :
    q ∈ (pts.foldl (fun m p => m.insert p key) m).keys ↔ q ∈ pts ∨ q ∈ m.keys := by
  rw [Finmap.mem_keys, Finmap.mem_keys, Finmap.mem_iff, Finmap.mem_iff]
  simp only [lookup_foldl_insert]
  by_cases hq : q ∈ pts <;> simp [hq]

theorem mem_keys_foldl_erase (vs : List Nat)
    (m : Finmap (fun _ : Nat => String)) (q : Nat) :
    q ∈ (vs.foldl (fun m n => m.erase n) m).keys ↔ q ∉ vs ∧ q ∈ m.keys := by
  rw [Finmap.mem_keys, Finmap.mem_keys, Finmap.mem_iff, Finmap.mem_iff]
  simp only [lookup_foldl_erase]
  by_cases hq : q ∈ vs <;> simp [hq]

/-! ## The invariant of reachable states -/

theorem Inv_create {α : Type} (V : Int) : Inv V (CreateConsistentHashinger α V) where
  vnum := rfl
  keys := fun k => by simp [CreateConsistentHashinger, Finmap.not_mem_empty]
  pts := fun k vs hk => by simp [CreateConsistentHashinger] at hk
  owner := fun q k hk => by simp [CreateConsistentHashinger] at hk
  circle := rfl

theorem Inv_put {α : Type} {V : Int} {h h1 : consistentHashing α} {hasher hasher1 : Nat}
    {key : String} {value : Any α} (hi : Inv V h)
    (hp : Put hasher h key value = Exec.ok (h1, hasher1)) : Inv V h1 := by
  by_cases hk : key ∈ h.node
  · rw [Put_old hasher h key value hk] at hp
    injection hp with hp
    injection hp with hp1 hp2
    subst hp1
    exact hi
  · have hnv : key ∉ h.nodev := fun hc => hk ((hi.keys key).mp hc)
    by_cases hV : 0 ≤ h.vnodenum
    · obtain ⟨hs, hput⟩ := Put_new hasher h key value hk hnv hV
      rw [hput] at hp
      injection hp with hp
      injection hp with hp1 hp2
      subst hp1
      have hvn : h.vnodenum = V := hi.vnum
      refine ⟨hvn, ?_, ?_, ?_, rfl⟩
      · intro k
        simp only [Finmap.mem_insert, hi.keys k]
      · intro k vs hl
        by_cases hkk : k = key
        · subst hkk
          simp only [Finmap.lookup_insert] at hl
          rw [← hvn]
          exact (Option.some.inj hl).symm
        · simp only [Finmap.lookup_insert_of_ne _ hkk] at hl
          exact hi.pts k vs hl
      · intro q k hl
        simp only [lookup_foldl_insert] at hl
        by_cases hq : q ∈ vpoints key h.vnodenum.toNat
        · rw [if_pos hq] at hl
          have hkk : key = k := Option.some.inj hl
          subst hkk
          refine ⟨by simp [Finmap.mem_insert], ?_⟩
          rw [← hvn]
          exact hq
        · rw [if_neg hq] at hl
          obtain ⟨ha, hb⟩ := hi.owner q k hl
          exact ⟨by simp [Finmap.mem_insert, ha], hb⟩
    · exfalso
      unfold Put at hp
      rw [Finmap.lookup_eq_none.mpr hk] at hp
      unfold addCircle at hp
      simp only [Finmap.lookup_eq_none.mpr hnv] at hp
      rw [if_pos (by omega)] at hp
      exact Exec.noConfusion hp

theorem Inv_remove {α : Type} {V : Int} {h : consistentHashing α} (key : String)
    (hi : Inv V h) : Inv V (Remove h key).2 := by
  by_cases hk : key ∈ h.node
  · obtain ⟨v, hv⟩ := Finmap.mem_iff.mp hk
    obtain ⟨vs, hvs⟩ := Finmap.mem_iff.mp ((hi.keys key).mpr hk)
    have hpts : vs = vpoints key V.toNat := hi.pts key vs hvs
    rw [Remove_known h key v hv]
    unfold removeCircle updateCricle
    simp only [hvs, Option.getD_some]
    refine ⟨hi.vnum, ?_, ?_, ?_, rfl⟩
    · intro k
      simp only [Finmap.mem_erase, hi.keys k]
    · intro k ws hl
      by_cases hkk : k = key
      · subst hkk
        simp [Finmap.lookup_erase] at hl
      · rw [Finmap.lookup_erase_ne hkk] at hl
        exact hi.pts k ws hl
    · intro q k hl
      simp only [lookup_foldl_erase] at hl
      by_cases hq : q ∈ vs
      · rw [if_pos hq] at hl
        exact absurd hl (by simp)
      · rw [if_neg hq] at hl
        obtain ⟨ha, hb⟩ := hi.owner q k hl
        refine ⟨?_, hb⟩
        rw [Finmap.mem_erase]
        refine ⟨?_, ha⟩
        intro hkk
        subst hkk
        exact hq (hpts ▸ hb)
  · rw [Remove_unknown h key hk]
    exact hi

/-- Every reachable state satisfies the invariant. -/
theorem reachable_inv {α : Type} {V : Int} {h : consistentHashing α}
    (hr : Reachable V h) : Inv V h := by
  induction hr with
  | create => exact Inv_create V
  | put key value _ hp ih => exact Inv_put ih hp
  | remove key _ ih => exact Inv_remove key ih

/-- A run from a reachable state ends in a reachable state. -/
theorem reachable_run {α : Type} {V : Int} (ops : List (Op α)) :
    ∀ (p q : consistentHashing α × Nat), Reachable V p.1 → run p ops = Exec.ok q →
      Reachable V q.1 := by
  induction ops with
  | nil =>
    intro p q hr hq
    simp only [run] at hq
    injection hq with hq
    subst hq
    exact hr
  | cons op ops ih =>
    intro p q hr hq
    simp only [run] at hq
    cases hs : step p op with
    | crash c =>
      rw [hs] at hq
      exact Exec.noConfusion hq
    | ok m =>
      rw [hs, Exec.bind_ok] at hq
      refine ih m q ?_ hq
      cases op with
      | put key value => exact Reachable.put key value hr hs
      | remove key =>
        simp only [step] at hs
        injection hs with hs
        subst hs
        exact Reachable.remove key hr

/-! ## `Len` after one call -/

theorem keys_insert {β : Type} (m : Finmap (fun _ : String => β)) (k : String) (b : β) :
    (m.insert k b).keys = insert k m.keys := by
  ext a
  simp [Finmap.mem_keys, Finmap.mem_insert]

theorem Len_Put_new {α : Type} {hasher hasher1 : Nat} {h h1 : consistentHashing α}
    {key : String} {value : Any α} (hk : key ∉ h.node) (hnv : key ∉ h.nodev)
    (hp : Put hasher h key value = Exec.ok (h1, hasher1)) :
    h1.node = h.node.insert key value ∧ Len h1 = Len h + 1 := by
  have hnode : h1.node = h.node.insert key value := by
    unfold Put at hp
    rw [Finmap.lookup_eq_none.mpr hk] at hp
    unfold addCircle at hp
    simp only [Finmap.lookup_eq_none.mpr hnv] at hp
    by_cases hV : h.vnodenum < 0
    · rw [if_pos hV] at hp
      exact Exec.noConfusion hp
    · rw [if_neg hV] at hp
      injection hp with hp
      injection hp with hp1 hp2
      rw [← hp1]
      rfl
  refine ⟨hnode, ?_⟩
  unfold Len
  rw [hnode, keys_insert, Finset.card_insert_of_not_mem (fun hc => hk (Finmap.mem_keys.mp hc))]

theorem Len_Remove_known {α : Type} (h : consistentHashing α) (key : String)
    (hk : key ∈ h.node) :
    (Remove h key).2.node = h.node.erase key ∧ Len (Remove h key).2 = Len h - 1 := by
  obtain ⟨v, hv⟩ := Finmap.mem_iff.mp hk
  have hnode : (Remove h key).2.node = h.node.erase key := by
    rw [Remove_known h key v hv]
    rfl
  refine ⟨hnode, ?_⟩
  unfold Len
  rw [hnode, Finmap.keys_erase, Finset.card_erase_of_mem (Finmap.mem_keys.mpr hk)]


/-! ## `Get` through `search` -/

theorem search_nil {α : Type} (h : consistentHashing α) (key : Nat) (hc : h.circle = []) :
    search h key = Exec.crash Crash.indexOutOfRange := by
  unfold search sortSearch
  simp [hc, searchLoop, index_nil]

/-- The result of `Get` is `search` followed by the two map reads. -/
theorem Get_eq {α : Type} (hasher : Nat) (h : consistentHashing α) (x : String) :
    (Get hasher h x).1 = (search h (fnv64a (bytes x))).bind (fun i =>
      Exec.ok ((h.vnode.lookup i).getD "",
        Any.uint64s ((h.nodev.lookup ((h.vnode.lookup i).getD "")).getD []))) := by
  unfold Get
  simp only [defaultHash_eq]
  cases search h (fnv64a (bytes x)) <;> rfl

/-- In a state that satisfies the invariant, a `Get` that returns found the
predecessor point of the hash of its key, and the owner it returns is the
entry of `vnode` at that point. -/
theorem Get_ok_inv {α : Type} {V : Int} {h : consistentHashing α} (hi : Inv V h)
    {hasher : Nat} {x k : String} {v : Any α} (hget : (Get hasher h x).1 = Exec.ok (k, v)) :
    ∃ p, IsPredecessor h.circle (fnv64a (bytes x)) p ∧ h.vnode.lookup p = some k ∧
      v = Any.uint64s ((h.nodev.lookup k).getD []) := by
  have hne : h.circle ≠ [] := by
    intro hc
    rw [Get_eq, search_nil h _ hc] at hget
    exact Exec.noConfusion hget
  have hs : h.circle.Sorted (· ≤ ·) := by
    rw [hi.circle]
    exact sortedKeys_sorted _
  obtain ⟨p, hres, hp⟩ := search_pred h (fnv64a (bytes x)) hne hs
  rw [Get_eq, hres, Exec.bind_ok] at hget
  injection hget with hget
  injection hget with hk hv
  have hpm : p ∈ h.vnode.keys := by
    have := hp.1
    rw [hi.circle, mem_sortedKeys] at this
    exact this
  obtain ⟨k1, hk1⟩ := Finmap.mem_iff.mp (Finmap.mem_keys.mp hpm)
  rw [hk1, Option.getD_some] at hk
  subst hk
  refine ⟨p, hp, hk1, ?_⟩
  rw [← hv, hk1, Option.getD_some]

/-- In a state that satisfies the invariant, `Get` returns the owner of the
predecessor point of the hash of its key. -/
theorem Get_of_pred {α : Type} {V : Int} {h : consistentHashing α} (hi : Inv V h)
    (hasher : Nat) (x k : String) (p : Nat)
    (hp : IsPredecessor h.circle (fnv64a (bytes x)) p) (hk : h.vnode.lookup p = some k) :
    (Get hasher h x).1 = Exec.ok (k, Any.uint64s ((h.nodev.lookup k).getD [])) := by
  have hne : h.circle ≠ [] := List.ne_nil_of_mem hp.1
  have hs : h.circle.Sorted (· ≤ ·) := by
    rw [hi.circle]
    exact sortedKeys_sorted _
  obtain ⟨q, hres, hq⟩ := search_pred h (fnv64a (bytes x)) hne hs
  have hqp : q = p := hq.unique hp
  subst hqp
  rw [Get_eq, hres, Exec.bind_ok, hk, Option.getD_some]

/-- Whenever `Get` returns, the value it returns is the list `nodev` holds
for the owner (the empty list when `nodev` has no entry for it). -/
theorem Get_value_from_nodev {α : Type} (hasher : Nat) (h : consistentHashing α)
    (x k : String) (v : Any α) (hget : (Get hasher h x).1 = Exec.ok (k, v)) :
    v = Any.uint64s ((h.nodev.lookup k).getD []) := by
  rw [Get_eq] at hget
  cases hs : search h (fnv64a (bytes x)) with
  | crash c =>
    rw [hs] at hget
    exact Exec.noConfusion hget
  | ok i =>
    rw [hs, Exec.bind_ok] at hget
    injection hget with hget
    injection hget with hk hv
    rw [← hv, hk]

/-- In a state that satisfies the invariant and has no registered node, the
circle is empty. -/
theorem circle_nil_of_Len_zero {α : Type} {V : Int} {h : consistentHashing α}
    (hi : Inv V h) (hlen : Len h = 0) : h.circle = [] := by
  have hnode : h.node.keys = ∅ := Finset.card_eq_zero.mp hlen
  rw [hi.circle, List.eq_nil_iff_forall_not_mem]
  intro q hq
  rw [mem_sortedKeys] at hq
  obtain ⟨k, hk⟩ := Finmap.mem_iff.mp (Finmap.mem_keys.mp hq)
  have hkm : k ∈ h.node.keys := Finmap.mem_keys.mpr (hi.owner q k hk).1
  rw [hnode] at hkm
  exact absurd hkm (Finset.not_mem_empty k)

/-! ## Runs of `Put` and of `Remove` -/

/-- A run of `Put` calls with pairwise distinct unregistered keys, on a ring
with a non-negative virtual-node count: every call returns and `Len` grows
by the number of calls. -/
theorem run_puts {α : Type} (V : Int) (hV : 0 ≤ V) (kvs : List (String × Any α)) :
    ∀ (h : consistentHashing α) (hasher : Nat), Inv V h →
      (∀ k ∈ kvs.map Prod.fst, k ∉ h.node) → (kvs.map Prod.fst).Nodup →
      ∃ h1 hasher1, run (h, hasher) (kvs.map (fun kv => Op.put kv.1 kv.2))
          = Exec.ok (h1, hasher1) ∧ Len h1 = Len h + kvs.length := by
  induction kvs with
  | nil =>
    intro h hasher _ _ _
    exact ⟨h, hasher, rfl, rfl⟩
  | cons kv kvs ih =>
    intro h hasher hi hnew hnd
    have hk : kv.1 ∉ h.node := hnew kv.1 (by simp)
    have hnv : kv.1 ∉ h.nodev := fun hc => hk ((hi.keys kv.1).mp hc)
    obtain ⟨hasher1, hput⟩ := Put_new hasher h kv.1 kv.2 hk hnv (by rw [hi.vnum]; exact hV)
    obtain ⟨hnode, hlen⟩ := Len_Put_new hk hnv hput
    rw [List.map_cons, List.nodup_cons] at hnd
    obtain ⟨h2, hasher2, hrun, hlen2⟩ := ih _ hasher1 (Inv_put hi hput)
      (by
        intro k hkm hc
        rw [hnode, Finmap.mem_insert] at hc
        rcases hc with hc | hc
        · exact hnd.1 (hc ▸ hkm)
        · exact hnew k (by simp only [List.map_cons, List.mem_cons]; exact Or.inr hkm) hc)
      hnd.2
    refine ⟨h2, hasher2, ?_, ?_⟩
    · simp only [List.map_cons, run, step]
      rw [hput, Exec.bind_ok]
      exact hrun
    · rw [hlen2, hlen, List.length_cons]
      omega

/-- A run of `Remove` calls with pairwise distinct registered keys: `Len`
shrinks by the number of calls, and the hasher is not touched. -/
theorem run_removes {α : Type} (rs : List String) :
    ∀ (h : consistentHashing α) (hasher : Nat), rs.Nodup → (∀ r ∈ rs, r ∈ h.node) →
      ∃ h2, run (h, hasher) (rs.map Op.remove) = Exec.ok (h2, hasher) ∧
        Len h2 = Len h - rs.length := by
  induction rs with
  | nil =>
    intro h hasher _ _
    exact ⟨h, rfl, rfl⟩
  | cons r rs ih =>
    intro h hasher hnd hmem
    rw [List.nodup_cons] at hnd
    obtain ⟨hnode, hlen⟩ := Len_Remove_known h r (hmem r (by simp))
    obtain ⟨h2, hrun, hlen2⟩ := ih (Remove h r).2 hasher hnd.2
      (by
        intro k hk
        rw [hnode, Finmap.mem_erase]
        exact ⟨fun hc => hnd.1 (hc ▸ hk), hmem k (by simp [hk])⟩)
    refine ⟨h2, ?_, ?_⟩
    · simp only [List.map_cons, run, step, Exec.bind_ok]
      exact hrun
    · rw [hlen2, hlen, List.length_cons]
      omega

/-- After a run of `Put` calls that returned, every key of the run is
registered. -/
theorem run_puts_mem {α : Type} (kvs : List (String × Any α)) :
    ∀ (h : consistentHashing α) (hasher : Nat) (h1 : consistentHashing α) (hasher1 : Nat),
      run (h, hasher) (kvs.map (fun kv => Op.put kv.1 kv.2)) = Exec.ok (h1, hasher1) →
      ∀ r, (r ∈ kvs.map Prod.fst ∨ r ∈ h.node) → r ∈ h1.node := by
  induction kvs with
  | nil =>
    intro h hasher h1 hasher1 hrun r hr
    simp only [List.map_nil, run] at hrun
    injection hrun with hrun
    injection hrun with he1 he2
    subst he1
    simpa using hr
  | cons kv kvs ih =>
    intro h hasher h1 hasher1 hrun r hr
    simp only [List.map_cons, run, step] at hrun
    cases hp : Put hasher h kv.1 kv.2 with
    | crash c =>
      rw [hp] at hrun
      exact Exec.noConfusion hrun
    | ok m =>
      rw [hp, Exec.bind_ok] at hrun
      refine ih m.1 m.2 h1 hasher1 hrun r ?_
      have hm : kv.1 ∈ m.1.node ∧ ∀ k, k ∈ h.node → k ∈ m.1.node := by
        by_cases hk : kv.1 ∈ h.node
        · rw [Put_old hasher h kv.1 kv.2 hk] at hp
          injection hp with hp
          subst hp
          exact ⟨hk, fun k hk1 => hk1⟩
        · have hnode : m.1.node = h.node.insert kv.1 kv.2 := by
            unfold Put at hp
            rw [Finmap.lookup_eq_none.mpr hk] at hp
            unfold addCircle at hp
            cases hl : h.nodev.lookup kv.1 with
            | none =>
              simp only [hl] at hp
              by_cases hV : h.vnodenum < 0
              · rw [if_pos hV] at hp
                exact Exec.noConfusion hp
              · rw [if_neg hV] at hp
                injection hp with hp
                rw [← hp]
                rfl
            | some vs =>
              simp only [hl] at hp
              injection hp with hp
              rw [← hp]
              rfl
          rw [hnode]
          exact ⟨by simp [Finmap.mem_insert], fun k hk1 => by simp [Finmap.mem_insert, hk1]⟩
      rcases hr with hr | hr
      · simp only [List.map_cons, List.mem_cons] at hr
        rcases hr with hr | hr
        · right
          rw [hr]
          exact hm.1
        · exact Or.inl hr
      · exact Or.inr (hm.2 r hr)

/-- On a ring created with a negative virtual-node count the first `Put`
panics in `make`, so only the empty run of `Put` calls returns. -/
theorem run_puts_negative {α : Type} (V : Int) (hV : V < 0) (hasher : Nat)
    (kvs : List (String × Any α)) (h : consistentHashing α) (hasher1 : Nat)
    (hrun : run (CreateConsistentHashinger α V, hasher) (kvs.map (fun kv => Op.put kv.1 kv.2))
      = Exec.ok (h, hasher1)) : kvs = [] := by
  cases kvs with
  | nil => rfl
  | cons kv kvs =>
    exfalso
    simp only [List.map_cons, run, step] at hrun
    have hc : Put hasher (CreateConsistentHashinger α V) kv.1 kv.2
        = Exec.crash Crash.makesliceCap := by
      unfold Put addCircle
      simp [CreateConsistentHashinger, hV]
    rw [hc] at hrun
    exact Exec.noConfusion hrun

/-! ## The loop of `Keys` -/

theorem take_set_of_le (l : List String) (n i : Nat) (k : String) (hni : n ≤ i) :
    (l.set i k).take n = l.take n := by
  induction l generalizing n i with
  | nil => simp
  | cons a l ih =>
    cases n with
    | zero => simp
    | succ n =>
      cases i with
      | zero => omega
      | succ i =>
        simp only [List.set_cons_succ, List.take_succ_cons]
        rw [ih n i (by omega)]

/-- The loop of `Keys` writes, if at all, at or beyond the length of the
caller's slice. -/
theorem keysLoop_take (n : Nat) (order : List String) :
    ∀ (caller : List String) (loc : Slice) (shared : Bool),
      n ≤ loc.len → (shared = true → loc.array = caller) →
      (keysLoop order caller loc shared).take n = caller.take n := by
  induction order with
  | nil => intro caller loc shared _ _; rfl
  | cons k ks ih =>
    intro caller loc shared hn hsh
    unfold keysLoop
    simp only [appendKey]
    by_cases hroom : loc.len < loc.array.length
    · simp only [if_pos hroom]
      cases shared with
      | true =>
        simp only [if_true]
        have h1 := ih (loc.array.set loc.len k)
          { array := loc.array.set loc.len k, len := loc.len + 1 } true
          (Nat.le_succ_of_le hn) (fun _ => rfl)
        rw [h1, ← hsh rfl]
        exact take_set_of_le _ _ _ _ hn
      | false =>
        exact ih caller { array := loc.array.set loc.len k, len := loc.len + 1 } false
          (Nat.le_succ_of_le hn) (fun hc => by simp at hc)
    · simp only [if_neg hroom]
      exact ih caller { array := loc.array.take loc.len ++ [k], len := loc.len + 1 } false
        (Nat.le_succ_of_le hn) (fun hc => by simp at hc)

/-! ## C1: the value returned by `Get` -/

/-- C1 (the code at the test's setup): after `CreateConsistentHashinger(20)`
and `Put("server0", "server0")`, the lookup `Get("clientid0")` is owned by
`server0` and returns the list of the 20 virtual points of `server0`, read
from `nodev`, while the node table holds the value `"server0"` for that key. -/
theorem Get_returns_point_list :
    putServer0.bind (fun p => (Get p.2 p.1 "clientid0").1)
      = Exec.ok ("server0", Any.uint64s (vpoints "server0" 20)) ∧
    putServer0.bind (fun p => Exec.ok (p.1.node.lookup "server0"))
      = Exec.ok (some (Any.val "server0")) := by
  decide

/-! ## C2: the point returned by `search` -/

/-- C2 (amended): on a non-empty ascending circle `search` returns a point of
the circle; when some point is below the target it is the largest point
below the target, and when every point is at or above the target it is the
last point of the circle. -/
theorem search_returns_predecessor {α : Type} (h : consistentHashing α) (key : Nat)
    (hne : h.circle ≠ []) (hs : h.circle.Sorted (· ≤ ·)) :
    ∃ p, search h key = Exec.ok p ∧ p ∈ h.circle ∧
      ((∃ y ∈ h.circle, y < key) → p < key ∧ ∀ y ∈ h.circle, y < key → y ≤ p) ∧
      ((∀ y ∈ h.circle, key ≤ y) → p = h.circle.getLast hne) := by
  obtain ⟨p, hres, hmem, hp⟩ := search_pred h key hne hs
  refine ⟨p, hres, hmem, ?_, ?_⟩
  · rintro ⟨y, hy, hyk⟩
    rcases hp with hA | ⟨hB, _⟩
    · exact hA
    · have := hB y hy
      omega
  · intro hall
    rcases hp with ⟨hA, _⟩ | ⟨_, hB⟩
    · have := hall p hmem
      omega
    · exact le_antisymm (sorted_le_getLast _ hs hne p hmem)
        (hB _ (List.getLast_mem hne))

/-- C2, witness: the circle `[10, 20, 30]` and the target `25`. -/
theorem search_returns_predecessor_witness :
    ringOfThree.circle ≠ [] ∧ ringOfThree.circle.Sorted (· ≤ ·) ∧
    ∃ p, search ringOfThree 25 = Exec.ok p ∧ p ∈ ringOfThree.circle ∧
      ((∃ y ∈ ringOfThree.circle, y < 25) →
        p < 25 ∧ ∀ y ∈ ringOfThree.circle, y < 25 → y ≤ p) ∧
      ((∀ y ∈ ringOfThree.circle, 25 ≤ y) →
        p = ringOfThree.circle.getLast (by decide)) :=
  ⟨by decide, by decide, search_returns_predecessor ringOfThree 25 (by decide) (by decide)⟩

/-- C2, counterexample: on the ascending circle `[10, 20, 30]` the smallest
point at or above the target `15` is `20`, and `search` returns `10`; every
point is below the target `35`, the first point is `10`, and `search`
returns `30`. -/
theorem search_not_successor :
    ringOfThree.circle.Sorted (· ≤ ·) ∧
    (20 ∈ ringOfThree.circle ∧ 15 ≤ 20 ∧ ∀ y ∈ ringOfThree.circle, 15 ≤ y → 20 ≤ y) ∧
    search ringOfThree 15 = Exec.ok 10 ∧
    (∀ y ∈ ringOfThree.circle, y < 35) ∧
    ringOfThree.circle.head? = some 10 ∧
    search ringOfThree 35 = Exec.ok 30 := by
  decide

/-! ## C3: removal moves no key between the other nodes -/

/-- C3: in a reachable state whose registered nodes have pairwise distinct
virtual points, if `Get(x)` returns the owner `k` and `k` is not `r`, then
after `Remove(r)` the call `Get(x)` returns the same owner `k` (and the same
value), whatever the state of the hasher at either call. -/
theorem Remove_keeps_other_owners {α : Type} (V : Int) (h : consistentHashing α)
    (hr : Reachable V h) (hd : DistinctPoints h) (r x : String) (hasher hasher2 : Nat)
    (k : String) (v : Any α) (hget : (Get hasher h x).1 = Exec.ok (k, v)) (hkr : k ≠ r) :
    (Get hasher2 (Remove h r).2 x).1 = Exec.ok (k, v) := by
  have hi := reachable_inv hr
  obtain ⟨p, hp, hk, hv⟩ := Get_ok_inv hi hget
  by_cases hrm : r ∈ h.node
  · have hi2 : Inv V (Remove h r).2 := Inv_remove r hi
    obtain ⟨w, hw⟩ := Finmap.mem_iff.mp hrm
    obtain ⟨vs, hvs⟩ := Finmap.mem_iff.mp ((hi.keys r).mpr hrm)
    have hpts : vs = vpoints r V.toNat := hi.pts r vs hvs
    obtain ⟨hkm, hpk⟩ := hi.owner p k hk
    have hpr : p ∉ vs := by
      intro hc
      rw [hpts, vpoints, List.mem_map] at hc
      obtain ⟨j, hj, hje⟩ := hc
      rw [vpoints, List.mem_map] at hpk
      obtain ⟨i, hi1, hie⟩ := hpk
      rw [List.mem_range] at hj hi1
      have := hd k (Finmap.mem_keys.mpr hkm) r (Finmap.mem_keys.mpr hrm)
        i (by rw [hi.vnum]; exact hi1) j (by rw [hi.vnum]; exact hj) (hie.trans hje.symm)
      exact hkr this.1
    have hstate : (Remove h r).2 = removeCircle h r := by
      rw [Remove_known h r w hw]
    have hvn : (Remove h r).2.vnode = vs.foldl (fun m n => m.erase n) h.vnode := by
      rw [hstate]
      simp [removeCircle, updateCricle, hvs]
    have hnv : (Remove h r).2.nodev = h.nodev.erase r := by
      rw [hstate]
      simp [removeCircle, updateCricle]
    have hk2 : (Remove h r).2.vnode.lookup p = some k := by
      rw [hvn, lookup_foldl_erase, if_neg hpr]
      exact hk
    have hsub : ∀ y ∈ (Remove h r).2.circle, y ∈ h.circle := by
      intro y hy
      rw [hi2.circle, mem_sortedKeys, hvn, mem_keys_foldl_erase] at hy
      rw [hi.circle, mem_sortedKeys]
      exact hy.2
    have hpd : p ∈ (Remove h r).2.circle := by
      rw [hi2.circle, mem_sortedKeys]
      exact Finmap.mem_keys.mpr (Finmap.mem_iff.mpr ⟨k, hk2⟩)
    rw [Get_of_pred hi2 hasher2 x k p (hp.subset hsub hpd) hk2, hnv,
      Finmap.lookup_erase_ne hkr, hv]
  · rw [Remove_unknown h r hrm, Get_of_pred hi hasher2 x k p hp hk, hv]

/-- C3, witness: on `twoServers` the key `clientid0` is owned by `server0`;
it still is after `Remove("server1")`. -/
theorem Remove_keeps_other_owners_witness :
    Reachable 2 twoServers.1 ∧ DistinctPoints twoServers.1 ∧
    "server1" ∈ twoServers.1.node ∧
    (Get 0 twoServers.1 "clientid0").1
      = Exec.ok ("server0", Any.uint64s (vpoints "server0" 2)) ∧
    "server0" ≠ "server1" ∧
    (Get 5 (Remove twoServers.1 "server1").2 "clientid0").1
      = Exec.ok ("server0", Any.uint64s (vpoints "server0" 2)) :=
  ⟨reachable_run twoServersOps (CreateConsistentHashinger String 2, 0) twoServers Reachable.create
     (by decide),
   by decide, by decide, by decide, by decide,
   Remove_keeps_other_owners 2 twoServers.1
     (reachable_run twoServersOps (CreateConsistentHashinger String 2, 0) twoServers Reachable.create
       (by decide))
     (by decide) "server1" "clientid0" 0 5 "server0" (Any.uint64s (vpoints "server0" 2))
     (by decide) (by decide)⟩

/-! ## C4: lookup on an empty ring -/

/-- C4 (what the code does on an empty ring): in every reachable state with
`Len() == 0` the circle is empty and `Get`, whatever the lookup key and the
state of the hasher, panics with an index out of range. -/
theorem Get_empty_ring_crashes {α : Type} (V : Int) (h : consistentHashing α)
    (hr : Reachable V h) (hlen : Len h = 0) (hasher : Nat) (x : String) :
    h.circle = [] ∧ (Get hasher h x).1 = Exec.crash Crash.indexOutOfRange := by
  have hc := circle_nil_of_Len_zero (reachable_inv hr) hlen
  refine ⟨hc, ?_⟩
  rw [Get_eq, search_nil h _ hc, Exec.bind_crash]

/-- C4 at concrete inputs: the ring just created, and the ring `oneServer`
after `Remove("server0")`. -/
theorem Get_empty_ring_crashes_witness :
    Reachable 20 (CreateConsistentHashinger String 20) ∧
    Len (CreateConsistentHashinger String 20) = 0 ∧
    (CreateConsistentHashinger String 20).circle = [] ∧
    (Get 0 (CreateConsistentHashinger String 20) "clientid0").1
      = Exec.crash Crash.indexOutOfRange ∧
    (Get 0 (Remove oneServer "server0").2 "clientid0").1
      = Exec.crash Crash.indexOutOfRange :=
  ⟨Reachable.create, by decide,
   (Get_empty_ring_crashes 20 (CreateConsistentHashinger String 20) Reachable.create
     (by decide) 0 "clientid0").1,
   (Get_empty_ring_crashes 20 (CreateConsistentHashinger String 20) Reachable.create
     (by decide) 0 "clientid0").2,
   by decide⟩

/-! ## C5: `Len` counts the registered nodes -/

/-- C5: starting from `CreateConsistentHashinger(V)`, `Put` is called with
`N` pairwise distinct keys. Whenever the calls return, `Len()` is `N`, and
after `Remove` is then called on `M` pairwise distinct keys among them,
`Len()` is `N - M`. -/
theorem Len_counts_nodes {α : Type} (V : Int) (hasher : Nat) (kvs : List (String × Any α))
    (hnd : (kvs.map Prod.fst).Nodup) :
    ∀ h hasher1,
      run (CreateConsistentHashinger α V, hasher) (kvs.map (fun kv => Op.put kv.1 kv.2))
        = Exec.ok (h, hasher1) →
      Len h = kvs.length ∧
      ∀ rs : List String, rs.Nodup → (∀ r ∈ rs, r ∈ kvs.map Prod.fst) →
        ∃ h2, run (h, hasher1) (rs.map Op.remove) = Exec.ok (h2, hasher1) ∧
          Len h2 = kvs.length - rs.length := by
  have hnew : ∀ k ∈ kvs.map Prod.fst, k ∉ (CreateConsistentHashinger α V).node := by
    intro k _
    exact Finmap.not_mem_empty
  intro h hasher1 hrun
  have hlen : Len h = kvs.length ∧ ∀ r ∈ kvs.map Prod.fst, r ∈ h.node := by
    by_cases hV : 0 ≤ V
    · obtain ⟨h1, hasher2, hrun1, hlen1⟩ :=
        run_puts V hV kvs (CreateConsistentHashinger α V) hasher (Inv_create V) hnew hnd
      rw [hrun] at hrun1
      injection hrun1 with hrun1
      injection hrun1 with he1 he2
      subst he1
      refine ⟨by rw [hlen1]; simp [Len, CreateConsistentHashinger], ?_⟩
      exact fun r hr => run_puts_mem kvs _ _ _ _ hrun r (Or.inl hr)
    · have hnil := run_puts_negative V (by omega) hasher kvs h hasher1 hrun
      subst hnil
      simp only [List.map_nil, run] at hrun
      injection hrun with hrun
      injection hrun with he1 he2
      subst he1
      exact ⟨rfl, by simp⟩
  refine ⟨hlen.1, ?_⟩
  intro rs hrs hsub
  obtain ⟨h2, hrun2, hlen2⟩ := run_removes rs h hasher1 hrs (fun r hr => hlen.2 r (hsub r hr))
  exact ⟨h2, hrun2, by rw [hlen2, hlen.1]⟩

/-- C5, witness: the test's 100 calls `Put` of `server0` .. `server99` with 20
virtual points each return and give `Len() == 100`; after `Remove` of two
of them, 98. -/
theorem Len_counts_nodes_witness :
    (testServers.map Prod.fst).Nodup ∧
    ∃ h hasher1,
      run (CreateConsistentHashinger String 20, 0)
        (testServers.map (fun kv => Op.put kv.1 kv.2)) = Exec.ok (h, hasher1) ∧
      Len h = 100 ∧
      ∃ h2, run (h, hasher1) (["server3", "server7"].map Op.remove) = Exec.ok (h2, hasher1) ∧
        Len h2 = 98 := by
  refine ⟨by decide, ?_⟩
  obtain ⟨h, hasher1, hrun, _⟩ :=
    run_puts 20 (by decide) testServers (CreateConsistentHashinger String 20) 0 (Inv_create 20)
      (fun k _ => Finmap.not_mem_empty) (by decide)
  obtain ⟨hlen, hrem⟩ := Len_counts_nodes 20 0 testServers (by decide) h hasher1 hrun
  exact ⟨h, hasher1, hrun, hlen, hrem ["server3", "server7"] (by decide) (by decide)⟩

/-! ## C6: `Put` of a registered key -/

/-- C6: for a key that is registered, `Put` with any value returns the state
it was given (node table, point lists, owner map, circle and so `Len()`),
and does not touch the hasher. -/
theorem Put_registered_unchanged {α : Type} (hasher : Nat) (h : consistentHashing α)
    (key : String) (value : Any α) (hk : key ∈ h.node) :
    Put hasher h key value = Exec.ok (h, hasher) :=
  Put_old hasher h key value hk

/-- C6, witness: `server0` is put again, with another value, on `oneServer`. -/
theorem Put_registered_unchanged_witness :
    "server0" ∈ oneServer.node ∧
    Put 7 oneServer "server0" (Any.val "other") = Exec.ok (oneServer, 7) :=
  ⟨by decide, Put_registered_unchanged 7 oneServer "server0" (Any.val "other") (by decide)⟩

/-! ## C7: `Put` then `Remove` -/

/-- C7: in a state reachable from `CreateConsistentHashinger(V)`, for a key
`k` that is not registered: whenever `Put(k, v)` returns, `Remove(k)` on the
resulting state returns `v`. -/
theorem Put_then_Remove_returns_value {α : Type} (V : Int) (hasher : Nat)
    (h : consistentHashing α) (hr : Reachable V h) (key : String) (value : Any α)
    (hk : key ∉ h.node) :
    ∀ h1 hasher1, Put hasher h key value = Exec.ok (h1, hasher1) →
      (Remove h1 key).1 = value := by
  have hi := reachable_inv hr
  have hnv : key ∉ h.nodev := fun hc => hk ((hi.keys key).mp hc)
  intro h1 hasher1 hput
  obtain ⟨hnode, _⟩ := Len_Put_new hk hnv hput
  rw [Remove_known h1 key value (by rw [hnode, Finmap.lookup_insert])]

/-- C7, witness: `Put` of `server1` on `oneServer` (20 virtual points)
returns, and `Remove` of `server1` then returns the value that was put. -/
theorem Put_then_Remove_returns_value_witness :
    Reachable 20 oneServer ∧ "server1" ∉ oneServer.node ∧
    ∃ h1 hasher1, Put 0 oneServer "server1" (Any.val "payload") = Exec.ok (h1, hasher1) ∧
      (Remove h1 "server1").1 = Any.val "payload" := by
  have hreach : Reachable 20 oneServer :=
    Reachable.put "server0" (Any.val "server0") Reachable.create
      (show Put 0 (CreateConsistentHashinger String 20) "server0" (Any.val "server0")
        = Exec.ok (oneServer, oneServerHasher) from by decide)
  obtain ⟨hasher1, hput⟩ := Put_new 0 oneServer "server1" (Any.val "payload")
    (by decide) (by decide) (by decide)
  exact ⟨hreach, by decide, _, hasher1, hput,
    Put_then_Remove_returns_value 20 0 oneServer hreach "server1" (Any.val "payload")
      (by decide) _ hasher1 hput⟩

/-! ## C8: `Remove` of an unregistered key -/

/-- C8: for a key that is not registered, `Remove` returns `nil` and the
state it was given. -/
theorem Remove_unregistered_unchanged {α : Type} (h : consistentHashing α) (key : String)
    (hk : key ∉ h.node) : Remove h key = (Any.nil, h) :=
  Remove_unknown h key hk

/-- C8, witness: `server1` is removed from `oneServer`. -/
theorem Remove_unregistered_unchanged_witness :
    "server1" ∉ oneServer.node ∧ Remove oneServer "server1" = (Any.nil, oneServer) :=
  ⟨by decide, Remove_unregistered_unchanged oneServer "server1" (by decide)⟩

/-! ## C9: `Keys` and the caller's destination -/

/-- C9 (what the code does): whatever the ring, the order of the iteration
and the destination slice, after `Keys(dst)` the caller's slice has the
length and the elements it had before the call, and the returned integer is
`Len()`. -/
theorem Keys_leaves_destination {α : Type} (h : consistentHashing α) (order : List String)
    (dst : Slice) :
    (Keys h order dst).1.len = dst.len ∧ (Keys h order dst).1.elems = dst.elems ∧
    (Keys h order dst).2 = Len h := by
  refine ⟨rfl, ?_, rfl⟩
  exact keysLoop_take dst.len order dst.array dst true le_rfl (fun _ => rfl)

/-- C9 at a concrete input: on `oneServer`, `Keys` called with an empty
destination returns `1` and the caller's destination is still empty. -/
theorem Keys_oneServer_empty_destination :
    Keys oneServer ["server0"] { array := [], len := 0 } = ({ array := [], len := 0 }, 1) ∧
    "server0" ∈ oneServer.node ∧
    "server0" ∉ (Keys oneServer ["server0"] { array := [], len := 0 }).1.elems := by
  decide

/-! ## C10: `Get` and the shared hasher -/

/-- Calls that do not overlap: the hash returned by `defaultHash` does not
depend on the state the shared hasher was left in, and neither does the
result of `Get(x)` on a given ring; `Get(x)` repeated after any sequence of
completed `Get` calls returns what it returned the first time. -/
theorem Get_deterministic {α : Type} (h : consistentHashing α) (x : String)
    (hasher hasher2 : Nat) (data : List Nat) (between : List String) :
    (defaultHash hasher data).1 = (defaultHash hasher2 data).1 ∧
    (Get hasher h x).1 = (Get hasher2 h x).1 ∧
    (Get (hasherAfterGets (Get hasher h x).2 h between) h x).1 = (Get hasher h x).1 := by
  refine ⟨rfl, ?_, ?_⟩
  · rw [Get_eq, Get_eq]
  · rw [Get_eq, Get_eq]

/-- The result of `Get` is the read-locked section at the hash of the key. -/
theorem Get_eq_getLocked {α : Type} (hasher : Nat) (h : consistentHashing α) (x : String) :
    Get hasher h x = (getLocked h (defaultHash hasher (bytes x)).1,
      (defaultHash hasher (bytes x)).2) := by
  unfold Get getLocked
  dsimp only
  cases search h (defaultHash hasher (bytes x)).1 <;> rfl

/-- A call of `Get` run alone, step after step, is `Get`. -/
theorem GetCall_steps_alone {α : Type} (h : consistentHashing α) (hasher : Nat) (x : String)
    (c1 : GetCall α) :
    runTwoGets h hasher { key := x, pc := GetPc.reset } c1 [false, false, false, false]
      = ((Get hasher h x).2, { key := x, pc := GetPc.done (Get hasher h x).1 }, c1) := by
  rw [Get_eq_getLocked]
  rfl

/-- C10 (what the code does): two concurrent calls `Get(x)` and `Get(y)` on
the same ring, scheduled so that the second call resets the shared hasher and
writes `y` after the first call wrote `x` and before it reads the sum: the
first call reads the hash of `y` and returns what `Get(y)` returns, whatever
the ring, the keys and the state of the hasher. -/
theorem Get_race_returns_other_lookup {α : Type} (h : consistentHashing α) (hasher : Nat)
    (x y : String) :
    runTwoGets h hasher { key := x, pc := GetPc.reset } { key := y, pc := GetPc.reset }
        [false, false, true, true, false, false]
      = (fnv64a (bytes y), { key := x, pc := GetPc.done (Get hasher h y).1 },
          { key := y, pc := GetPc.sum }) := by
  rw [Get_eq_getLocked]
  rfl

/-- C10 at a concrete input: on `twoServers`, `Get("clientid0")` run alone
returns the owner `server0`; run concurrently with `Get("clientid10")` under
the schedule above, the same call returns the owner `server1`. -/
theorem Get_race_returns_other_lookup_witness :
    (Get 0 twoServers.1 "clientid0").1
      = Exec.ok ("server0", Any.uint64s (vpoints "server0" 2)) ∧
    runTwoGets twoServers.1 0 { key := "clientid0", pc := GetPc.reset }
        { key := "clientid10", pc := GetPc.reset } [false, false, true, true, false, false]
      = (fnv64a (bytes "clientid10"),
          { key := "clientid0",
            pc := GetPc.done (Exec.ok ("server1", Any.uint64s (vpoints "server1" 2))) },
          { key := "clientid10", pc := GetPc.sum }) := by
  refine ⟨by decide, ?_⟩
  rw [Get_race_returns_other_lookup twoServers.1 0 "clientid0" "clientid10"]
  have hy : (Get 0 twoServers.1 "clientid10").1
      = Exec.ok ("server1", Any.uint64s (vpoints "server1" 2)) := by decide
  rw [hy]

/-! ## More on reachable states -/

theorem sortedKeys_nodup (s : Finset Nat) : (sortedKeys s).Nodup := by
  obtain ⟨⟨l⟩, hl⟩ := s
  show (l.insertionSort (· ≤ ·)).Nodup
  exact (List.perm_insertionSort _ l).nodup_iff.mpr hl

/-- A call of `Put` with an unregistered key panics when the count of
virtual nodes is negative. -/
theorem Put_new_negative {α : Type} (hasher : Nat) (h : consistentHashing α) (key : String)
    (value : Any α) (hk : key ∉ h.node) (hnv : key ∉ h.nodev) (hV : h.vnodenum < 0) :
    Put hasher h key value = Exec.crash Crash.makesliceCap := by
  unfold Put
  rw [Finmap.lookup_eq_none.mpr hk]
  unfold addCircle
  simp only [Finmap.lookup_eq_none.mpr hnv]
  rw [if_pos hV]

/-- A reachable state with a registered node has a count of virtual nodes
that is not negative. -/
theorem reachable_node_nonneg {α : Type} {V : Int} {h : consistentHashing α}
    (hr : Reachable V h) : ∀ k, k ∈ h.node → 0 ≤ V := by
  induction hr with
  | create =>
    intro k hk
    exact absurd hk Finmap.not_mem_empty
  | @put h h1 hasher hasher1 key value hr0 hp ih =>
    intro k hk
    by_cases hV : 0 ≤ V
    · exact hV
    · have hi := reachable_inv hr0
      by_cases hkey : key ∈ h.node
      · rw [Put_old hasher h key value hkey] at hp
        injection hp with hp
        injection hp with hp1 hp2
        subst hp1
        exact ih k hk
      · have hnv : key ∉ h.nodev := fun hc => hkey ((hi.keys key).mp hc)
        rw [Put_new_negative hasher h key value hkey hnv (by rw [hi.vnum]; omega)] at hp
        exact Exec.noConfusion hp
  | @remove h key hr0 ih =>
    intro k hk
    by_cases hkey : key ∈ h.node
    · rw [(Len_Remove_known h key hkey).1, Finmap.mem_erase] at hk
      exact ih k hk.2
    · rw [Remove_unknown h key hkey] at hk
      exact ih k hk

/-! ## Points of registered nodes under the distinctness assumption -/

theorem mem_vpoints (key : String) (n q : Nat) :
    q ∈ vpoints key n ↔ ∃ i, i < n ∧ vpoint key i = q := by
  simp [vpoints, List.mem_map, List.mem_range]

/-- Two different keys of a list with distinct points share no point. -/
theorem DistinctKeys.disjoint {n : Nat} {ks : List String} (hd : DistinctKeys n ks)
    {a b : String} (ha : a ∈ ks) (hb : b ∈ ks) (hab : a ≠ b) (q : Nat)
    (hqa : q ∈ vpoints a n) : q ∉ vpoints b n := by
  intro hqb
  obtain ⟨i, hi, hie⟩ := (mem_vpoints a n q).mp hqa
  obtain ⟨j, hj, hje⟩ := (mem_vpoints b n q).mp hqb
  exact hab (hd a ha b hb i hi j hj (hie.trans hje.symm)).1

theorem PointsPresent_create {α : Type} (V : Int) :
    PointsPresent (CreateConsistentHashinger α V) := by
  intro k vs hk
  simp [CreateConsistentHashinger] at hk

theorem PointsPresent_put {α : Type} {V : Int} {ks : List String}
    {h h1 : consistentHashing α} {hasher hasher1 : Nat} {key : String} {value : Any α}
    (hi : Inv V h) (hks : ∀ k, k ∈ h.node → k ∈ ks) (hd : DistinctKeys V.toNat ks)
    (hkey : key ∈ ks) (hpp : PointsPresent h)
    (hp : Put hasher h key value = Exec.ok (h1, hasher1)) : PointsPresent h1 := by
  by_cases hk : key ∈ h.node
  · rw [Put_old hasher h key value hk] at hp
    injection hp with hp
    injection hp with hp1 hp2
    subst hp1
    exact hpp
  · have hnv : key ∉ h.nodev := fun hc => hk ((hi.keys key).mp hc)
    by_cases hV : 0 ≤ h.vnodenum
    · obtain ⟨hs, hput⟩ := Put_new hasher h key value hk hnv hV
      rw [hput] at hp
      injection hp with hp
      injection hp with hp1 hp2
      subst hp1
      intro k vs hl q hq
      simp only [lookup_foldl_insert]
      by_cases hkk : k = key
      · subst hkk
        simp only [Finmap.lookup_insert] at hl
        rw [← Option.some.inj hl] at hq
        rw [if_pos hq]
      · simp only [Finmap.lookup_insert_of_ne _ hkk] at hl
        have hvs : vs = vpoints k V.toNat := hi.pts k vs hl
        have hkm : k ∈ h.node := (hi.keys k).mp (Finmap.mem_iff.mpr ⟨vs, hl⟩)
        have hq2 : q ∉ vpoints key h.vnodenum.toNat := by
          rw [hi.vnum]
          exact hd.disjoint (hks k hkm) hkey hkk q (hvs ▸ hq)
        rw [if_neg hq2]
        exact hpp k vs hl q hq
    · rw [Put_new_negative hasher h key value hk hnv (by omega)] at hp
      exact Exec.noConfusion hp

theorem PointsPresent_remove {α : Type} {V : Int} {ks : List String}
    {h : consistentHashing α} (key : String)
    (hi : Inv V h) (hks : ∀ k, k ∈ h.node → k ∈ ks) (hd : DistinctKeys V.toNat ks)
    (hpp : PointsPresent h) : PointsPresent (Remove h key).2 := by
  by_cases hk : key ∈ h.node
  · obtain ⟨v, hv⟩ := Finmap.mem_iff.mp hk
    obtain ⟨ws, hws⟩ := Finmap.mem_iff.mp ((hi.keys key).mpr hk)
    have hpts : ws = vpoints key V.toNat := hi.pts key ws hws
    rw [Remove_known h key v hv]
    unfold removeCircle updateCricle
    simp only [hws, Option.getD_some]
    intro k vs hl q hq
    simp only [lookup_foldl_erase]
    by_cases hkk : k = key
    · subst hkk
      simp [Finmap.lookup_erase] at hl
    · rw [Finmap.lookup_erase_ne hkk] at hl
      have hvs : vs = vpoints k V.toNat := hi.pts k vs hl
      have hkm : k ∈ h.node := (hi.keys k).mp (Finmap.mem_iff.mpr ⟨vs, hl⟩)
      have hq2 : q ∉ ws := by
        rw [hpts]
        exact hd.disjoint (hks k hkm) (hks key hk) hkk q (hvs ▸ hq)
      rw [if_neg hq2]
      exact hpp k vs hl q hq
  · rw [Remove_unknown h key hk]
    exact hpp

/-- The nodes registered by `Put` are registered with the key given. -/
theorem Put_node_mem {α : Type} {h h1 : consistentHashing α} {hasher hasher1 : Nat}
    {key : String} {value : Any α} (hp : Put hasher h key value = Exec.ok (h1, hasher1)) :
    ∀ k, k ∈ h1.node → k = key ∨ k ∈ h.node := by
  intro k hk
  by_cases hkey : key ∈ h.node
  · rw [Put_old hasher h key value hkey] at hp
    injection hp with hp
    injection hp with hp1 hp2
    subst hp1
    exact Or.inr hk
  · by_cases hnv : key ∈ h.nodev
    · obtain ⟨vs, hvs⟩ := Finmap.mem_iff.mp hnv
      unfold Put at hp
      rw [Finmap.lookup_eq_none.mpr hkey] at hp
      unfold addCircle at hp
      simp only [hvs] at hp
      injection hp with hp
      injection hp with hp1 hp2
      rw [← hp1] at hk
      simp only [updateCricle, Finmap.mem_insert] at hk
      exact hk
    · rw [(Len_Put_new hkey hnv hp).1, Finmap.mem_insert] at hk
      exact hk

/-- After a run from the created ring, the invariant holds, every registered
key was given to a `Put` of the run, and, when the keys given to `Put` have
pairwise distinct points, all the points of the registered nodes are present
in `vnode`. -/
theorem run_points_present {α : Type} (V : Int) (ks : List String)
    (hd : DistinctKeys V.toNat ks) (ops : List (Op α)) :
    ∀ (p q : consistentHashing α × Nat), Inv V p.1 → (∀ k, k ∈ p.1.node → k ∈ ks) →
      PointsPresent p.1 → (∀ k ∈ putKeys ops, k ∈ ks) → run p ops = Exec.ok q →
      Inv V q.1 ∧ (∀ k, k ∈ q.1.node → k ∈ ks) ∧ PointsPresent q.1 := by
  induction ops with
  | nil =>
    intro p q hi hks hpp _ hq
    simp only [run] at hq
    injection hq with hq
    subst hq
    exact ⟨hi, hks, hpp⟩
  | cons op ops ih =>
    intro p q hi hks hpp hops hq
    simp only [run] at hq
    cases hs : step p op with
    | crash c =>
      rw [hs] at hq
      exact Exec.noConfusion hq
    | ok m =>
      rw [hs, Exec.bind_ok] at hq
      cases op with
      | put key value =>
        have hkey : key ∈ ks := hops key (by simp [putKeys])
        have hs1 : Put p.2 p.1 key value = Exec.ok (m.1, m.2) := hs
        refine ih m q (Inv_put hi hs1) ?_ (PointsPresent_put hi hks hd hkey hpp hs1)
          (fun k hk => hops k (by simp [putKeys, hk])) hq
        intro k hk
        rcases Put_node_mem hs1 k hk with h1 | h1
        · exact h1 ▸ hkey
        · exact hks k h1
      | remove key =>
        simp only [step] at hs
        injection hs with hs
        subst hs
        refine ih _ q (Inv_remove key hi) ?_ (PointsPresent_remove key hi hks hd hpp)
          (fun k hk => hops k (by simpa [putKeys] using hk)) hq
        intro k hk
        by_cases hkey : key ∈ p.1.node
        · rw [(Len_Remove_known p.1 key hkey).1, Finmap.mem_erase] at hk
          exact hks k hk.2
        · rw [Remove_unknown p.1 key hkey] at hk
          exact hks k hk

/-! ## C11: two concurrent calls of `Put` -/

/-- A call of `Put` run alone, critical section after critical section, is
`Put`. -/
theorem PutCall_step_step {α : Type} (p : consistentHashing α × Nat) (key : String)
    (value : Any α) :
    (PutCall.step p { key := key, value := value, pc := PutPc.check }).bind
        (fun r => PutCall.step r.1 r.2)
      = (Put p.2 p.1 key value).bind
        (fun q => Exec.ok (q, { key := key, value := value, pc := PutPc.done })) := by
  unfold Put
  cases hl : p.1.node.lookup key with
  | some v => simp [PutCall.step, hl]
  | none => simp [PutCall.step, hl]

/-- Go `addCircle` for a key that `nodev` lists already: the new points are
appended to the list. -/
theorem addCircle_listed {α : Type} (hasher : Nat) (h : consistentHashing α) (key : String)
    (value : Any α) (vs : List Nat) (hvs : h.nodev.lookup key = some vs) :
    ∃ hasher1, addCircle hasher h key value = Exec.ok
      ({ node := h.node.insert key value,
         vnode := (vpoints key h.vnodenum.toNat).foldl (fun m p => m.insert p key) h.vnode,
         nodev := h.nodev.insert key (vs ++ vpoints key h.vnodenum.toNat),
         circle := sortedKeys
           ((vpoints key h.vnodenum.toNat).foldl (fun m p => m.insert p key) h.vnode).keys,
         vnodenum := h.vnodenum }, hasher1) := by
  refine ⟨(addLoop key h.vnodenum.toNat 0 hasher h.vnode vs).1, ?_⟩
  unfold addCircle
  simp only [hvs, updateCricle, addLoop_vnode, addLoop_vs]

/-- C11 (what the code does): in a reachable state, `V` not negative, two
concurrent calls of `Put` with the same unregistered key, scheduled so that
both make their read-locked test before either takes the write lock: both
pass the test and both run `addCircle`; at the end `nodev` lists the `V`
points of the key twice, `2 * V` entries, and `node` holds the value of the
second call. -/
theorem Put_race_runs_addCircle_twice {α : Type} (V : Int) (hV : 0 ≤ V)
    (h : consistentHashing α) (hr : Reachable V h) (hasher : Nat) (key : String)
    (v0 v1 : Any α) (hk : key ∉ h.node) :
    runTwo (h, hasher) { key := key, value := v0, pc := PutPc.check }
        { key := key, value := v1, pc := PutPc.check } [false, true]
      = Exec.ok ((h, hasher), { key := key, value := v0, pc := PutPc.add },
          { key := key, value := v1, pc := PutPc.add }) ∧
    ∃ h2 hasher2,
      runTwo (h, hasher) { key := key, value := v0, pc := PutPc.check }
          { key := key, value := v1, pc := PutPc.check } [false, true, false, true]
        = Exec.ok ((h2, hasher2), { key := key, value := v0, pc := PutPc.done },
            { key := key, value := v1, pc := PutPc.done }) ∧
      h2.nodev.lookup key = some (vpoints key V.toNat ++ vpoints key V.toNat) ∧
      ((vpoints key V.toNat ++ vpoints key V.toNat).length : Int) = 2 * V ∧
      h2.node.lookup key = some v1 := by
  have hi := reachable_inv hr
  have hnv : key ∉ h.nodev := fun hc => hk ((hi.keys key).mp hc)
  have hl : h.node.lookup key = none := Finmap.lookup_eq_none.mpr hk
  have hvn : h.vnodenum = V := hi.vnum
  obtain ⟨s1, hasher1, hadd, hs1, hs1v⟩ : ∃ s1 hasher1,
      addCircle hasher h key v0 = Exec.ok (s1, hasher1) ∧
      s1.nodev.lookup key = some (vpoints key V.toNat) ∧ s1.vnodenum = V := by
    obtain ⟨hasher1, hput⟩ := Put_new hasher h key v0 hk hnv (by rw [hvn]; exact hV)
    unfold Put at hput
    simp only [hl] at hput
    exact ⟨_, hasher1, hput, by simp only [Finmap.lookup_insert, hvn], hvn⟩
  obtain ⟨s2, hasher2, hadd2, hs2, hs2n⟩ : ∃ s2 hasher2,
      addCircle hasher1 s1 key v1 = Exec.ok (s2, hasher2) ∧
      s2.nodev.lookup key = some (vpoints key V.toNat ++ vpoints key V.toNat) ∧
      s2.node.lookup key = some v1 := by
    obtain ⟨hasher2, hadd2⟩ := addCircle_listed hasher1 s1 key v1 _ hs1
    exact ⟨_, hasher2, hadd2, by simp only [Finmap.lookup_insert, hs1v],
      by simp only [Finmap.lookup_insert]⟩
  refine ⟨?_, s2, hasher2, ?_, hs2, ?_, hs2n⟩
  · simp [runTwo, PutCall.step, hl]
  · simp only [runTwo, PutCall.step, hl, Exec.bind_ok, hadd, hadd2]
  · rw [List.length_append, vpoints, List.length_map, List.length_range]
    omega

/-- C11 at a concrete input: on `CreateConsistentHashinger(1)`, two concurrent
calls `Put("server0", _)`. -/
theorem Put_race_runs_addCircle_twice_witness :
    (0 : Int) ≤ 1 ∧ Reachable 1 (CreateConsistentHashinger String 1) ∧
    "server0" ∉ (CreateConsistentHashinger String 1).node ∧
    ∃ h2 hasher2,
      runTwo (CreateConsistentHashinger String 1, 0)
          { key := "server0", value := Any.val "first", pc := PutPc.check }
          { key := "server0", value := Any.val "second", pc := PutPc.check }
          [false, true, false, true]
        = Exec.ok ((h2, hasher2),
            { key := "server0", value := Any.val "first", pc := PutPc.done },
            { key := "server0", value := Any.val "second", pc := PutPc.done }) ∧
      h2.nodev.lookup "server0"
        = some (vpoints "server0" (1 : Int).toNat ++ vpoints "server0" (1 : Int).toNat) ∧
      ((vpoints "server0" (1 : Int).toNat ++ vpoints "server0" (1 : Int).toNat).length : Int)
        = 2 * 1 ∧
      h2.node.lookup "server0" = some (Any.val "second") :=
  ⟨by decide, Reachable.create, by decide,
   (Put_race_runs_addCircle_twice 1 (by decide) (CreateConsistentHashinger String 1)
     Reachable.create 0 "server0" (Any.val "first") (Any.val "second") (by decide)).2⟩

/-! ## C12: the circle is sorted -/

/-- C12: in every state reachable from `CreateConsistentHashinger(V)` by
calls of `Put` and `Remove`, the circle is in ascending order, and even in
strictly ascending order. -/
theorem circle_sorted {α : Type} (V : Int) (h : consistentHashing α) (hr : Reachable V h) :
    h.circle.Sorted (· ≤ ·) ∧ h.circle.Sorted (· < ·) := by
  have hi := reachable_inv hr
  have hs : h.circle.Sorted (· ≤ ·) := by
    rw [hi.circle]
    exact sortedKeys_sorted _
  have hn : h.circle.Nodup := by
    rw [hi.circle]
    exact sortedKeys_nodup _
  exact ⟨hs, hs.lt_of_le hn⟩

/-- C12, witness: the circle of `twoServers`. -/
theorem circle_sorted_witness :
    Reachable 2 twoServers.1 ∧
    twoServers.1.circle.Sorted (· ≤ ·) ∧ twoServers.1.circle.Sorted (· < ·) :=
  ⟨reachable_run twoServersOps (CreateConsistentHashinger String 2, 0) twoServers
     Reachable.create (by decide),
   circle_sorted 2 twoServers.1
     (reachable_run twoServersOps (CreateConsistentHashinger String 2, 0) twoServers
       Reachable.create (by decide))⟩

/-! ## C13: the circle and the points of the registered nodes -/

/-- C13: in the state a sequence of `Put` and `Remove` calls brings
`CreateConsistentHashinger(V)` to, when the virtual points of the keys given
to `Put` are pairwise distinct, a value is on the circle exactly when it is
one of the points `nodev` records for a registered node. -/
theorem circle_eq_points_of_nodes {α : Type} (V : Int) (hasher : Nat) (ops : List (Op α))
    (h : consistentHashing α) (hasher1 : Nat)
    (hrun : run (CreateConsistentHashinger α V, hasher) ops = Exec.ok (h, hasher1))
    (hd : DistinctKeys V.toNat (putKeys ops)) :
    ∀ q, q ∈ h.circle ↔ ∃ k vs, k ∈ h.node ∧ h.nodev.lookup k = some vs ∧ q ∈ vs := by
  obtain ⟨hi, _, hpp⟩ := run_points_present V (putKeys ops) hd ops
    (CreateConsistentHashinger α V, hasher) (h, hasher1) (Inv_create V)
    (fun k hk => absurd hk Finmap.not_mem_empty) (PointsPresent_create V)
    (fun k hk => hk) hrun
  intro q
  rw [hi.circle, mem_sortedKeys, Finmap.mem_keys, Finmap.mem_iff]
  constructor
  · rintro ⟨k, hk⟩
    obtain ⟨hkm, hq⟩ := hi.owner q k hk
    obtain ⟨vs, hvs⟩ := Finmap.mem_iff.mp ((hi.keys k).mpr hkm)
    exact ⟨k, vs, hkm, hvs, (hi.pts k vs hvs) ▸ hq⟩
  · rintro ⟨k, vs, _, hvs, hq⟩
    exact ⟨k, hpp k vs hvs q hq⟩

/-- C13, witness: the ring `twoServers`, built by two calls of `Put`. -/
theorem circle_eq_points_of_nodes_witness :
    run (CreateConsistentHashinger String 2, 0) twoServersOps
      = Exec.ok (twoServers.1, twoServers.2) ∧
    DistinctKeys (2 : Int).toNat (putKeys twoServersOps) ∧
    ∀ q, q ∈ twoServers.1.circle ↔
      ∃ k vs, k ∈ twoServers.1.node ∧ twoServers.1.nodev.lookup k = some vs ∧ q ∈ vs :=
  ⟨by decide, by decide,
   circle_eq_points_of_nodes 2 0 twoServersOps twoServers.1 twoServers.2
     (by decide) (by decide)⟩

/-! ## C14: the points of a registered node -/

/-- C14: in every state reachable from `CreateConsistentHashinger(V)`, the
tables `node` and `nodev` have the same keys, and for every registered key
`k` the entry `nodev[k]` has exactly `V` elements, the element number `i`
being the hash of `k`, an underscore and the decimal digits of `i`. -/
theorem nodev_lists_V_points {α : Type} (V : Int) (h : consistentHashing α)
    (hr : Reachable V h) :
    (∀ k, k ∈ h.node ↔ k ∈ h.nodev) ∧
    ∀ k, k ∈ h.node → ∃ vs, h.nodev.lookup k = some vs ∧ (vs.length : Int) = V ∧
      vs = (List.range V.toNat).map
        (fun i => (defaultHash 0 (bytes (k ++ "_" ++ toString i))).1) := by
  have hi := reachable_inv hr
  refine ⟨fun k => (hi.keys k).symm, ?_⟩
  intro k hk
  obtain ⟨vs, hvs⟩ := Finmap.mem_iff.mp ((hi.keys k).mpr hk)
  have hV : 0 ≤ V := reachable_node_nonneg hr k hk
  have hpts : vs = vpoints k V.toNat := hi.pts k vs hvs
  refine ⟨vs, hvs, ?_, hpts⟩
  rw [hpts, vpoints, List.length_map, List.length_range]
  omega

/-- C14, witness: the ring `oneServer`, with 20 virtual points. -/
theorem nodev_lists_V_points_witness :
    Reachable 20 oneServer ∧ "server0" ∈ oneServer.node ∧
    ∃ vs, oneServer.nodev.lookup "server0" = some vs ∧ (vs.length : Int) = 20 ∧
      vs = (List.range (20 : Int).toNat).map
        (fun i => (defaultHash 0 (bytes ("server0" ++ "_" ++ toString i))).1) := by
  have hreach : Reachable 20 oneServer :=
    Reachable.put "server0" (Any.val "server0") Reachable.create
      (show Put 0 (CreateConsistentHashinger String 20) "server0" (Any.val "server0")
        = Exec.ok (oneServer, oneServerHasher) from by decide)
  exact ⟨hreach, by decide, (nodev_lists_V_points 20 oneServer hreach).2 "server0" (by decide)⟩

/-! ## C15: lookups on a ring with a node -/

/-- C15: in the state a sequence of `Put` and `Remove` calls brings
`CreateConsistentHashinger(V)` to, with `V >= 1`, `Len() >= 1` and pairwise
distinct virtual points of the keys given to `Put`: the circle is not empty,
and for every lookup key `search` returns a point of the circle (its index is
within bounds), `vnode` has an entry for that point, and `Get` returns the
owner of that entry, which is a key of the node table. -/
theorem Get_returns_live_owner {α : Type} (V : Int) (hV : 1 ≤ V) (hasher : Nat)
    (ops : List (Op α)) (h : consistentHashing α) (hasher1 : Nat)
    (hrun : run (CreateConsistentHashinger α V, hasher) ops = Exec.ok (h, hasher1))
    (hd : DistinctKeys V.toNat (putKeys ops)) (hlen : 1 ≤ Len h)
    (hasher2 : Nat) (x : String) :
    h.circle ≠ [] ∧
    ∃ p k v, search h (defaultHash hasher2 (bytes x)).1 = Exec.ok p ∧ p ∈ h.circle ∧
      h.vnode.lookup p = some k ∧ k ∈ h.node ∧ (Get hasher2 h x).1 = Exec.ok (k, v) := by
  obtain ⟨hi, _, hpp⟩ := run_points_present V (putKeys ops) hd ops
    (CreateConsistentHashinger α V, hasher) (h, hasher1) (Inv_create V)
    (fun k hk => absurd hk Finmap.not_mem_empty) (PointsPresent_create V)
    (fun k hk => hk) hrun
  have hne : h.circle ≠ [] := by
    obtain ⟨k0, hk0⟩ := Finset.card_pos.mp (show 0 < h.node.keys.card from hlen)
    obtain ⟨vs, hvs⟩ := Finmap.mem_iff.mp ((hi.keys k0).mpr (Finmap.mem_keys.mp hk0))
    have hq : vpoint k0 0 ∈ vs := by
      rw [hi.pts k0 vs hvs, mem_vpoints]
      exact ⟨0, by omega, rfl⟩
    have hmem : vpoint k0 0 ∈ h.circle := by
      rw [hi.circle, mem_sortedKeys, Finmap.mem_keys, Finmap.mem_iff]
      exact ⟨k0, hpp k0 vs hvs _ hq⟩
    exact List.ne_nil_of_mem hmem
  have hs : h.circle.Sorted (· ≤ ·) := by
    rw [hi.circle]
    exact sortedKeys_sorted _
  obtain ⟨p, hres, hp⟩ := search_pred h (fnv64a (bytes x)) hne hs
  have hpm : p ∈ h.vnode.keys := by
    have := hp.1
    rw [hi.circle, mem_sortedKeys] at this
    exact this
  obtain ⟨k, hk⟩ := Finmap.mem_iff.mp (Finmap.mem_keys.mp hpm)
  exact ⟨hne, p, k, _, hres, hp.1, hk, (hi.owner p k hk).1, Get_of_pred hi hasher2 x k p hp hk⟩

/-- C15, witness: the lookup of `clientid0` on `twoServers`. -/
theorem Get_returns_live_owner_witness :
    (1 : Int) ≤ 2 ∧
    run (CreateConsistentHashinger String 2, 0) twoServersOps
      = Exec.ok (twoServers.1, twoServers.2) ∧
    DistinctKeys (2 : Int).toNat (putKeys twoServersOps) ∧ 1 ≤ Len twoServers.1 ∧
    twoServers.1.circle ≠ [] ∧
    ∃ p k v, search twoServers.1 (defaultHash 7 (bytes "clientid0")).1 = Exec.ok p ∧
      p ∈ twoServers.1.circle ∧ twoServers.1.vnode.lookup p = some k ∧
      k ∈ twoServers.1.node ∧ (Get 7 twoServers.1 "clientid0").1 = Exec.ok (k, v) :=
  ⟨by decide, by decide, by decide, by decide,
   Get_returns_live_owner 2 (by decide) 0 twoServersOps twoServers.1 twoServers.2
     (by decide) (by decide) (by decide) 7 "clientid0"⟩

/-! ## C16: `search` on a strictly ascending circle -/

/-- C16: on a non-empty strictly ascending circle, for every target (64-bit
or not), `search` returns the largest point strictly below the target when there is
one, and otherwise the last point of the circle, which is its largest. -/
theorem search_strict_predecessor {α : Type} (h : consistentHashing α) (key : Nat)
    (hne : h.circle ≠ []) (hs : h.circle.Sorted (· < ·)) :
    ∃ p, search h key = Exec.ok p ∧
      ((∃ y ∈ h.circle, y < key) →
        p ∈ h.circle ∧ p < key ∧ ∀ y ∈ h.circle, y < key → y ≤ p) ∧
      ((∀ y ∈ h.circle, key ≤ y) →
        p = h.circle.getLast hne ∧ ∀ y ∈ h.circle, y ≤ p) := by
  have hle : h.circle.Sorted (· ≤ ·) := hs.imp (fun hab => Nat.le_of_lt hab)
  obtain ⟨p, hres, hmem, hp⟩ := search_pred h key hne hle
  refine ⟨p, hres, ?_, ?_⟩
  · rintro ⟨y, hy, hyk⟩
    rcases hp with ⟨hA, hA2⟩ | ⟨hB, _⟩
    · exact ⟨hmem, hA, hA2⟩
    · have := hB y hy
      omega
  · intro hall
    rcases hp with ⟨hA, _⟩ | ⟨_, hB⟩
    · have := hall p hmem
      omega
    · exact ⟨le_antisymm (sorted_le_getLast _ hle hne p hmem) (hB _ (List.getLast_mem hne)), hB⟩

/-- C16, witness: the circle `[10, 20, 30]` and the target `5`, below every
point. -/
theorem search_strict_predecessor_witness :
    ringOfThree.circle ≠ [] ∧ ringOfThree.circle.Sorted (· < ·) ∧
    ∃ p, search ringOfThree 5 = Exec.ok p ∧
      ((∃ y ∈ ringOfThree.circle, y < 5) →
        p ∈ ringOfThree.circle ∧ p < 5 ∧ ∀ y ∈ ringOfThree.circle, y < 5 → y ≤ p) ∧
      ((∀ y ∈ ringOfThree.circle, 5 ≤ y) →
        p = ringOfThree.circle.getLast (by decide) ∧ ∀ y ∈ ringOfThree.circle, y ≤ p) :=
  ⟨by decide, by decide,
   search_strict_predecessor ringOfThree 5 (by decide) (by decide)⟩

/-! ## C17: insertion moves keys to the new node only -/

/-- The owner map after `Put` of an unregistered key. -/
theorem Put_new_vnode {α : Type} {hasher hasher1 : Nat} {h h1 : consistentHashing α}
    {key : String} {value : Any α} (hk : key ∉ h.node) (hnv : key ∉ h.nodev)
    (hp : Put hasher h key value = Exec.ok (h1, hasher1)) :
    h1.vnode = (vpoints key h.vnodenum.toNat).foldl (fun m q => m.insert q key) h.vnode := by
  by_cases hV : 0 ≤ h.vnodenum
  · obtain ⟨hasher2, hput⟩ := Put_new hasher h key value hk hnv hV
    rw [hput] at hp
    injection hp with hp
    injection hp with he1 he2
    rw [← he1]
  · rw [Put_new_negative hasher h key value hk hnv (by omega)] at hp
    exact Exec.noConfusion hp

/-- C17: in a reachable state with a non-empty circle, for a key `n` that is
not registered: `Put(n, v)` returns, `Get(x)` returns an owner before and
after it, and the owner after it is the owner before it or `n`. No
assumption on the hashes is needed. -/
theorem Put_moves_keys_to_new_node_only {α : Type} (V : Int) (h : consistentHashing α)
    (hr : Reachable V h) (hne : h.circle ≠ []) (n : String) (value : Any α)
    (hn : n ∉ h.node) (x : String) (hasher hasher1 hasher2 : Nat) :
    ∃ h1 hasher3 k v k1 v1, Put hasher h n value = Exec.ok (h1, hasher3) ∧
      (Get hasher1 h x).1 = Exec.ok (k, v) ∧ (Get hasher2 h1 x).1 = Exec.ok (k1, v1) ∧
      (k1 = k ∨ k1 = n) := by
  have hi := reachable_inv hr
  have hs : h.circle.Sorted (· ≤ ·) := by
    rw [hi.circle]
    exact sortedKeys_sorted _
  obtain ⟨p, _, hp⟩ := search_pred h (fnv64a (bytes x)) hne hs
  have hpm : p ∈ h.vnode.keys := by
    have := hp.1
    rw [hi.circle, mem_sortedKeys] at this
    exact this
  obtain ⟨k, hk⟩ := Finmap.mem_iff.mp (Finmap.mem_keys.mp hpm)
  have hV : 0 ≤ V := reachable_node_nonneg hr k (hi.owner p k hk).1
  have hnv : n ∉ h.nodev := fun hc => hn ((hi.keys n).mp hc)
  obtain ⟨h1, hasher3, hput⟩ : ∃ h1 hasher3, Put hasher h n value = Exec.ok (h1, hasher3) := by
    obtain ⟨hasher3, hput⟩ := Put_new hasher h n value hn hnv (by rw [hi.vnum]; exact hV)
    exact ⟨_, hasher3, hput⟩
  have hi1 : Inv V h1 := Inv_put hi hput
  have hvn := Put_new_vnode hn hnv hput
  have hmem1 : ∀ y, y ∈ h1.circle ↔ y ∈ vpoints n h.vnodenum.toNat ∨ y ∈ h.circle := by
    intro y
    rw [hi1.circle, mem_sortedKeys, hvn, mem_keys_foldl_insert, hi.circle, mem_sortedKeys]
  have hsub : ∀ y ∈ h.circle, y ∈ h1.circle := fun y hy => (hmem1 y).mpr (Or.inr hy)
  have hne1 : h1.circle ≠ [] := List.ne_nil_of_mem (hsub p hp.1)
  have hs1 : h1.circle.Sorted (· ≤ ·) := by
    rw [hi1.circle]
    exact sortedKeys_sorted _
  obtain ⟨p1, _, hp1⟩ := search_pred h1 (fnv64a (bytes x)) hne1 hs1
  by_cases hq : p1 ∈ vpoints n h.vnodenum.toNat
  · have hk1 : h1.vnode.lookup p1 = some n := by
      rw [hvn, lookup_foldl_insert, if_pos hq]
    exact ⟨h1, hasher3, k, _, n, _, hput, Get_of_pred hi hasher1 x k p hp hk,
      Get_of_pred hi1 hasher2 x n p1 hp1 hk1, Or.inr rfl⟩
  · have hp1c : p1 ∈ h.circle := by
      rcases (hmem1 p1).mp hp1.1 with h0 | h0
      · exact absurd h0 hq
      · exact h0
    have hpp : p1 = p := (hp1.subset hsub hp1c).unique hp
    have hk1 : h1.vnode.lookup p1 = some k := by
      rw [hvn, lookup_foldl_insert, if_neg hq, hpp]
      exact hk
    exact ⟨h1, hasher3, k, _, k, _, hput, Get_of_pred hi hasher1 x k p hp hk,
      Get_of_pred hi1 hasher2 x k p1 hp1 hk1, Or.inl rfl⟩

/-- C17, witness: `server2` is put on `twoServers`; the owner of
`clientid0` was `server0` and still is. -/
theorem Put_moves_keys_to_new_node_only_witness :
    Reachable 2 twoServers.1 ∧ twoServers.1.circle ≠ [] ∧ "server2" ∉ twoServers.1.node ∧
    ∃ h1 hasher3 k v k1 v1,
      Put 0 twoServers.1 "server2" (Any.val "server2") = Exec.ok (h1, hasher3) ∧
      (Get 0 twoServers.1 "clientid0").1 = Exec.ok (k, v) ∧
      (Get 0 h1 "clientid0").1 = Exec.ok (k1, v1) ∧ (k1 = k ∨ k1 = "server2") :=
  ⟨reachable_run twoServersOps (CreateConsistentHashinger String 2, 0) twoServers
     Reachable.create (by decide),
   by decide, by decide,
   Put_moves_keys_to_new_node_only 2 twoServers.1
     (reachable_run twoServersOps (CreateConsistentHashinger String 2, 0) twoServers
       Reachable.create (by decide))
     (by decide) "server2" (Any.val "server2") (by decide) "clientid0" 0 0 0⟩

/-! ## C18: `Put` then `Remove` restores the state -/

theorem insert_erase_self {β : Type} (m : Finmap (fun _ : String => β)) (k : String) (b : β)
    (hk : k ∉ m) : (m.insert k b).erase k = m := by
  apply Finmap.ext_lookup
  intro a
  by_cases ha : a = k
  · subst ha
    rw [Finmap.lookup_erase, Finmap.lookup_eq_none.mpr hk]
  · rw [Finmap.lookup_erase_ne ha, Finmap.lookup_insert_of_ne _ ha]

theorem foldl_erase_foldl_insert (key : String) (pts : List Nat)
    (m : Finmap (fun _ : Nat => String)) (hfree : ∀ q ∈ pts, q ∉ m) :
    pts.foldl (fun m q => m.erase q) (pts.foldl (fun m q => m.insert q key) m) = m := by
  apply Finmap.ext_lookup
  intro a
  rw [lookup_foldl_erase, lookup_foldl_insert]
  by_cases ha : a ∈ pts
  · rw [if_pos ha, Finmap.lookup_eq_none.mpr (hfree a ha)]
  · rw [if_neg ha, if_neg ha]

/-- C18: in a reachable state, for a key `k` that is not registered and whose
`V` virtual points are not keys of `vnode`: whenever `Put(k, v)` returns,
`Remove(k)` returns `v` and leaves the very state `Put` started from (node
table, point lists, owner map, circle and count of virtual nodes). -/
theorem Put_then_Remove_restores_state {α : Type} (V : Int) (hasher : Nat)
    (h : consistentHashing α) (hr : Reachable V h) (key : String) (value : Any α)
    (hk : key ∉ h.node) (hfree : ∀ i, i < V.toNat → vpoint key i ∉ h.vnode) :
    ∀ h1 hasher1, Put hasher h key value = Exec.ok (h1, hasher1) →
      Remove h1 key = (value, h) := by
  have hi := reachable_inv hr
  have hnv : key ∉ h.nodev := fun hc => hk ((hi.keys key).mp hc)
  intro h1 hasher1 hput
  by_cases hV : 0 ≤ h.vnodenum
  · obtain ⟨hasher2, hput2⟩ := Put_new hasher h key value hk hnv hV
    rw [hput2] at hput
    injection hput with hput
    injection hput with he1 he2
    subst he1
    have hfree2 : ∀ q ∈ vpoints key h.vnodenum.toNat, q ∉ h.vnode := by
      intro q hq
      obtain ⟨i, hi1, hie⟩ := (mem_vpoints key _ q).mp hq
      rw [← hie]
      exact hfree i (by rw [← hi.vnum]; exact hi1)
    rw [Remove_known _ key value (by simp [Finmap.lookup_insert])]
    have hc := hi.circle
    rcases h with ⟨node, vnode, nodev, circle, vnodenum⟩
    simp only at hk hnv hfree2 hc
    simp only [removeCircle, updateCricle, Finmap.lookup_insert, Option.getD_some,
      insert_erase_self _ key _ hk, insert_erase_self _ key _ hnv,
      foldl_erase_foldl_insert key _ vnode hfree2, ← hc]
  · rw [Put_new_negative hasher h key value hk hnv (by omega)] at hput
    exact Exec.noConfusion hput

/-- C18, witness: `Put` of `server1` on `oneServer` returns, and `Remove` of
`server1` then gives `oneServer` back. -/
theorem Put_then_Remove_restores_state_witness :
    Reachable 20 oneServer ∧ "server1" ∉ oneServer.node ∧
    (∀ i, i < (20 : Int).toNat → vpoint "server1" i ∉ oneServer.vnode) ∧
    ∃ h1 hasher1, Put 0 oneServer "server1" (Any.val "payload") = Exec.ok (h1, hasher1) ∧
      Remove h1 "server1" = (Any.val "payload", oneServer) := by
  have hreach : Reachable 20 oneServer :=
    Reachable.put "server0" (Any.val "server0") Reachable.create
      (show Put 0 (CreateConsistentHashinger String 20) "server0" (Any.val "server0")
        = Exec.ok (oneServer, oneServerHasher) from by decide)
  obtain ⟨hasher1, hput⟩ := Put_new 0 oneServer "server1" (Any.val "payload")
    (by decide) (by decide) (by decide)
  exact ⟨hreach, by decide, by decide, _, hasher1, hput,
    Put_then_Remove_restores_state 20 0 oneServer hreach "server1" (Any.val "payload")
      (by decide) (by decide) _ hasher1 hput⟩

end Conshash
